import Mathlib

/-!
sshBrute: the credential stream, the authenticator and the trial coordinator

A shallow embedding of `src/ssh-brute.c`.

* Bytes are `Char`; the byte `0` is written `NUL`.
* A C string is the run of bytes up to the first `NUL`; a buffer is a
  `List Char` followed by an implicit terminating `NUL`.
* `stdin` is the list of bytes not read yet.
* libssh is a parameter (`Libssh`): the answers of `ssh_options_set`,
  `ssh_connect` and `ssh_userauth_password`.
* The threads are interleaved at the statements of the loop of `run`:
  the test of `quit`, the call of `getpassword` (it holds `mutex_pass`
  around `getline`; what follows the unlock touches the buffer of the
  thread only), the call of `try` (it touches its own session only; the
  lines it prints are kept together), the `printf` of line 130 and the
  assignment `quit = 1` are one atomic step each.
* A schedule is a list of worker numbers; `exec` lets them move in that
  order. A statement about every interleaving is a statement about every
  schedule.
* `exit(EXIT_FAILURE)` in `try` ends the process: no thread moves after it.
-/

namespace SshBrute

/-! ## Definitions -/

/-! ### Bytes, C strings, `strchr`, `getline` -/

/-- The terminating byte of a C string. -/
def NUL : Char := Char.ofNat 0

/-- The C string that starts at the head of `b`: the bytes before the first `NUL`. -/
def cstr : List Char → List Char
  | [] => []
  | x :: xs => if x = NUL then [] else x :: cstr xs

/-- Byte `b[i]` of a buffer; the byte right after the data is the terminating `NUL`. -/
def byteAt (b : List Char) (i : Nat) : Char := b.getD i NUL

/-- The call `strchr(s, c)`: offset of the first `c` in the C string at the head of `s`,
`none` for the null pointer. The terminator counts as part of the string. -/
def strchr : List Char → Char → Option Nat
  | [], c => if c = NUL then some 0 else none
  | x :: xs, c =>
    if x = c then some 0
    else if x = NUL then none
    else (strchr xs c).map (· + 1)

/-- Bytes up to and including the first newline, and the bytes after it. -/
def readLine : List Char → List Char × List Char
  | [] => ([], [])
  | c :: cs =>
    if c = '\n' then ([c], cs)
    else ((c :: (readLine cs).1), (readLine cs).2)

/-- The call `getline(buf, buflen, stdin) >= 0`: `none` at end of input, otherwise the line
read (its newline included, when there is one) and the input left. -/
def getline (stdin : List Char) : Option (List Char × List Char) :=
  match stdin with
  | [] => none
  | _ :: _ => some (readLine stdin)

/-- The lines `getline` hands out, one after the other, until end of input. -/
def linesAux : Nat → List Char → List (List Char)
  | 0, _ => []
  | n + 1, inp =>
    match getline inp with
    | none => []
    | some (l, rest) => l :: linesAux n rest

/-- The lines of an input stream. -/
def lines (inp : List Char) : List (List Char) := linesAux inp.length inp

/-! ### Standard output -/

/-- One line written to standard output, by the `printf` that writes it. -/
inductive Out
  /-- Line 54: `Trying: %s %s:%s`. -/
  | trying (host user pass : List Char)
  /-- Line 57: `libssh: Cannot set user option`. -/
  | cannotSetUser
  /-- Line 62: `libssh: Cannot set host option`. -/
  | cannotSetHost
  /-- Line 67: `libssh: Cannot set port option`. -/
  | cannotSetPort
  /-- Line 72: `Connection Failed didnt try: %s:%s`. -/
  | connectionFailed (user pass : List Char)
  /-- Line 79: `Success: %s:%s`, written by `try`. -/
  | trySuccess (user pass : List Char)
  /-- Line 86: `Failed: %s:%s`. -/
  | failed (user pass : List Char)
  /-- Line 110: `username: %s password: %s`. -/
  | parsed (user pass : List Char)
  /-- Line 130: `Success! Username: %s Password: %s`, written by `run`. -/
  | runSuccess (user pass : List Char)
deriving DecidableEq

/-! ### The function `getpassword` -/

/-- A username and a password, as `getpassword` stores them through its out parameters. -/
structure Credential where
  username : List Char
  password : List Char
deriving DecidableEq

/-- Lines 99-108 of `getpassword`, on the buffer `getline` filled: `none` is
`return 0`, otherwise the C strings `*username` and `*password` point to. -/
def splitLine (buf : List Char) : Option Credential :=
  match strchr buf ':' with
  | none => none
  | some i =>
    if byteAt buf (i + 1) = NUL then none
    else
      let buf1 := buf.set i NUL
      let buf2 :=
        match strchr (buf1.drop (i + 1)) '\n' with
        | some j => buf1.set (i + 1 + j) NUL
        | none => buf1
      some { username := cstr buf2, password := cstr (buf2.drop (i + 1)) }

/-- What a call of `getpassword` gives back. -/
structure GetpasswordResult where
  /-- The credential stored through `username` and `password` when it returns 1;
  `none` when it returns 0. -/
  cred : Option Credential
  /-- The input left unread. -/
  stdin : List Char
  /-- Whether `getline` read a line, and which. -/
  line : Option (List Char)
  /-- What it printed. -/
  out : List Out
deriving DecidableEq

/-- The function `getpassword` (lines 93-116). -/
def getpassword (verbose : Int) (stdin : List Char) : GetpasswordResult :=
  match getline stdin with
  | some (buf, rest) =>
    match splitLine buf with
    | none => { cred := none, stdin := rest, line := some buf, out := [] }
    | some c =>
      { cred := some c, stdin := rest, line := some buf,
        out := if verbose ≥ 3 then [Out.parsed c.username c.password] else [] }
  | none => { cred := none, stdin := stdin, line := none, out := [] }

/-- The value `getpassword` returns. -/
def GetpasswordResult.ret (r : GetpasswordResult) : Int := if r.cred.isSome then 1 else 0

/-! ### The function `try` -/

/-- The three options `try` sets on a session. -/
inductive SshOption
  | SSH_OPTIONS_USER
  | SSH_OPTIONS_HOST
  | SSH_OPTIONS_PORT_STR
deriving DecidableEq

/-- The answers of libssh. A session is known by the options set on it. -/
structure Libssh where
  /-- Value of `ssh_options_set(session, type, value)`; negative on error. -/
  ssh_options_set : SshOption → List Char → Int
  /-- Value of `ssh_connect(session)` for a session with this host, port and user; 0 when connected. -/
  ssh_connect : (host port user : List Char) → Int
  /-- Value of `ssh_userauth_password(session, username, password)` on a connected session
  for this host and port; 0 when the password is accepted. -/
  ssh_userauth_password : (host port username password : List Char) → Int

/-- A call into libssh on the session of one `try`. -/
inductive LibCall
  | ssh_new
  | ssh_options_set (o : SshOption) (value : List Char)
  | ssh_connect
  | ssh_userauth_password (username password : List Char)
  | ssh_disconnect
  | ssh_free
deriving DecidableEq

/-- What a call of `try` does. -/
structure TryResult where
  /-- The value returned; `none` when `try` ends the process with `exit(EXIT_FAILURE)`. -/
  ret : Option Int
  /-- What it printed. -/
  out : List Out
  /-- The libssh calls it made on its session, in order. -/
  calls : List LibCall

/-- The function `try` (lines 47-91). -/
def try_ (lib : Libssh) (verbose : Int) (hostname username password : List Char) (port : Int) :
    TryResult :=
  let sport := (toString port).toList
  let out0 := if verbose ≥ 2 then [Out.trying hostname username password] else []
  let c1 := [LibCall.ssh_new, LibCall.ssh_options_set .SSH_OPTIONS_USER username]
  if lib.ssh_options_set .SSH_OPTIONS_USER username < 0 then
    { ret := none, out := out0 ++ [Out.cannotSetUser], calls := c1 }
  else
    let c2 := c1 ++ [LibCall.ssh_options_set .SSH_OPTIONS_HOST hostname]
    if lib.ssh_options_set .SSH_OPTIONS_HOST hostname < 0 then
      { ret := none, out := out0 ++ [Out.cannotSetHost], calls := c2 }
    else
      let c3 := c2 ++ [LibCall.ssh_options_set .SSH_OPTIONS_PORT_STR sport]
      if lib.ssh_options_set .SSH_OPTIONS_PORT_STR sport < 0 then
        { ret := none, out := out0 ++ [Out.cannotSetPort], calls := c3 }
      else
        let c4 := c3 ++ [LibCall.ssh_connect]
        if lib.ssh_connect hostname sport username ≠ 0 then
          { ret := some 0, out := out0 ++ [Out.connectionFailed username password],
            calls := c4 ++ [LibCall.ssh_disconnect, LibCall.ssh_free] }
        else
          let c5 := c4 ++ [LibCall.ssh_userauth_password username password]
          if lib.ssh_userauth_password hostname sport username password = 0 then
            { ret := some 1, out := out0 ++ [Out.trySuccess username password],
              calls := c5 ++ [LibCall.ssh_disconnect, LibCall.ssh_free] }
          else
            { ret := some 0,
              out := out0 ++ (if verbose ≥ 1 then [Out.failed username password] else []),
              calls := c5 ++ [LibCall.ssh_disconnect, LibCall.ssh_free] }

/-! ### The threads: `run` and `main` -/

/-- What does not change during a run: libssh, the global `verbose`, and `struct args`. -/
structure Config where
  lib : Libssh
  verbose : Int
  host : List Char
  port : Int

/-- The call of `try` a worker makes for a credential (line 129). -/
def Config.attempt (cfg : Config) (c : Credential) : TryResult :=
  try_ cfg.lib cfg.verbose cfg.host c.username c.password cfg.port

/-- Where a thread stands in `run`. -/
inductive Pc
  /-- At `while (quit == 0)`, line 125. -/
  | loopHead
  /-- About to call `getpassword`, line 126. -/
  | callGetpassword
  /-- About to call `try` with the credential it got, line 129. -/
  | callTry (c : Credential)
  /-- `try` returned nonzero: about to print the success report, line 130. -/
  | report (c : Credential)
  /-- About to execute `quit = 1`, line 131. -/
  | setQuit (c : Credential)
  /-- At `free:` or after it (the spec's `Stopped`). -/
  | stopped
  /-- Inside `exit(EXIT_FAILURE)`, called by `try`: the process is over. -/
  | inExit
deriving DecidableEq

/-- A call of `try` by a worker, kept for the record. -/
structure Trial where
  /-- The worker that called. -/
  worker : Nat
  /-- The credential it passed. -/
  cred : Credential
  /-- What `try` returned (`none`: it called `exit`). -/
  ret : Option Int
deriving DecidableEq

/-- The state of the process while the workers run. The last four fields are a
record of what happened, they do not influence the run. -/
structure State where
  /-- The input not read yet. -/
  stdin : List Char
  /-- The global `quit`. -/
  quit : Int
  /-- The lines written to standard output so far. -/
  out : List Out
  /-- Where each thread stands. -/
  pcs : List Pc
  /-- Whether `exit` was called. -/
  exited : Bool
  /-- The lines `getline` handed out, in order, and the worker that got each. -/
  reads : List (Nat × List Char)
  /-- The calls of `try`, in order. -/
  tries : List Trial
  /-- How many times `quit = 1` was executed. -/
  quitWrites : Nat
deriving DecidableEq

/-- The state when `main` has created `nthreads` threads (lines 197-202). -/
def init (inp : List Char) (nthreads : Nat) : State :=
  { stdin := inp, quit := 0, out := [], pcs := List.replicate nthreads Pc.loopHead,
    exited := false, reads := [], tries := [], quitWrites := 0 }

/-- One atomic step of worker `i`; `none` when it has none (no such worker, it
has stopped, or the process is over). -/
def step (cfg : Config) (i : Nat) (s : State) : Option State :=
  if s.exited then none
  else
    match s.pcs[i]? with
    | none => none
    | some Pc.stopped => none
    | some Pc.inExit => none
    | some Pc.loopHead =>
      some { s with pcs := s.pcs.set i (if s.quit = 0 then Pc.callGetpassword else Pc.stopped) }
    | some Pc.callGetpassword =>
      let r := getpassword cfg.verbose s.stdin
      some { s with
        stdin := r.stdin
        out := s.out ++ r.out
        reads := s.reads ++ (match r.line with
          | some l => [(i, l)]
          | none => [])
        pcs := s.pcs.set i (match r.cred with
          | some c => Pc.callTry c
          | none => Pc.stopped) }
    | some (Pc.callTry c) =>
      let r := cfg.attempt c
      match r.ret with
      | none =>
        some { s with
          out := s.out ++ r.out
          tries := s.tries ++ [⟨i, c, none⟩]
          exited := true
          pcs := s.pcs.set i Pc.inExit }
      | some v =>
        some { s with
          out := s.out ++ r.out
          tries := s.tries ++ [⟨i, c, some v⟩]
          pcs := s.pcs.set i (if v ≠ 0 then Pc.report c else Pc.loopHead) }
    | some (Pc.report c) =>
      some { s with
        out := s.out ++ [Out.runSuccess c.username c.password]
        pcs := s.pcs.set i (Pc.setQuit c) }
    | some (Pc.setQuit _) =>
      some { s with
        quit := 1
        quitWrites := s.quitWrites + 1
        pcs := s.pcs.set i Pc.stopped }

/-- The run under a schedule: the workers named in it move one step each, in
that order; a name that cannot move is passed over. -/
def exec (cfg : Config) : List Nat → State → State
  | [], s => s
  | i :: sch, s =>
    match step cfg i s with
    | some s1 => exec cfg sch s1
    | none => exec cfg sch s

/-- The number of steps really taken under a schedule. -/
def stepsTaken (cfg : Config) : List Nat → State → Nat
  | [], _ => 0
  | i :: sch, s =>
    match step cfg i s with
    | some s1 => stepsTaken cfg sch s1 + 1
    | none => stepsTaken cfg sch s

/-- Every thread is at `free:` or past it: `main` gets through its joins (lines 204-209). -/
def allStopped (s : State) : Prop := ∀ pc ∈ s.pcs, pc = Pc.stopped

instance (s : State) : Decidable (allStopped s) := by
  unfold allStopped; infer_instance

/-- The run is over: the process called `exit`, or every thread has stopped. -/
def finished (s : State) : Prop := s.exited = true ∨ allStopped s

instance (s : State) : Decidable (finished s) := by
  unfold finished; infer_instance

/-! ### Two concrete libssh -/

/-- A libssh whose server accepts one credential only and never fails otherwise. -/
def mockLib (good : Credential) : Libssh :=
  { ssh_options_set := fun _ _ => 0
    ssh_connect := fun _ _ _ => 0
    ssh_userauth_password := fun _ _ u p =>
      if u = good.username ∧ p = good.password then 0 else 1 }

/-- The configuration of the spec's scenario. -/
def mockCfg (good : Credential) : Config :=
  { lib := mockLib good, verbose := 0, host := "testhost".toList, port := 2222 }

/-! ### Vocabulary of the statements -/

/-- A success line of `try`. -/
def Out.isTrySuccess : Out → Bool
  | .trySuccess _ _ => true
  | _ => false

/-- A success line of `run`. -/
def Out.isRunSuccess : Out → Bool
  | .runSuccess _ _ => true
  | _ => false

/-- A success line, of `try` or of `run`. -/
def Out.isSuccess (o : Out) : Bool := o.isTrySuccess || o.isRunSuccess

/-- The line is one `getpassword` accepts and `try` returns 1 for its credential. -/
def authLine (cfg : Config) (l : List Char) : Bool :=
  match splitLine l with
  | some c => decide ((cfg.attempt c).ret = some 1)
  | none => false

/-! ### The steps, case by case -/

/-- The steps of worker `i`, case by case. -/
inductive Step (cfg : Config) (i : Nat) (s : State) : State → Prop
  | loopGo (hx : s.exited = false) (hpc : s.pcs[i]? = some Pc.loopHead) (hq : s.quit = 0) :
    Step cfg i s { s with pcs := s.pcs.set i Pc.callGetpassword }
  | loopStop (hx : s.exited = false) (hpc : s.pcs[i]? = some Pc.loopHead) (hq : s.quit ≠ 0) :
    Step cfg i s { s with pcs := s.pcs.set i Pc.stopped }
  | readEof (hx : s.exited = false) (hpc : s.pcs[i]? = some Pc.callGetpassword)
    (hin : s.stdin = []) :
    Step cfg i s { s with pcs := s.pcs.set i Pc.stopped }
  | readBad (hx : s.exited = false) (hpc : s.pcs[i]? = some Pc.callGetpassword)
    (l rest : List Char) (hg : getline s.stdin = some (l, rest)) (hs : splitLine l = none) :
    Step cfg i s { s with
      stdin := rest, reads := s.reads ++ [(i, l)], pcs := s.pcs.set i Pc.stopped }
  | readCred (hx : s.exited = false) (hpc : s.pcs[i]? = some Pc.callGetpassword)
    (l rest : List Char) (c : Credential) (hg : getline s.stdin = some (l, rest))
    (hs : splitLine l = some c) :
    Step cfg i s { s with
      stdin := rest
      out := s.out ++ (if cfg.verbose ≥ 3 then [Out.parsed c.username c.password] else [])
      reads := s.reads ++ [(i, l)]
      pcs := s.pcs.set i (Pc.callTry c) }
  | tryExit (hx : s.exited = false) (c : Credential) (hpc : s.pcs[i]? = some (Pc.callTry c))
    (hr : (cfg.attempt c).ret = none) :
    Step cfg i s { s with
      out := s.out ++ (cfg.attempt c).out
      tries := s.tries ++ [⟨i, c, none⟩]
      exited := true
      pcs := s.pcs.set i Pc.inExit }
  | tryFail (hx : s.exited = false) (c : Credential) (hpc : s.pcs[i]? = some (Pc.callTry c))
    (hr : (cfg.attempt c).ret = some 0) :
    Step cfg i s { s with
      out := s.out ++ (cfg.attempt c).out
      tries := s.tries ++ [⟨i, c, some 0⟩]
      pcs := s.pcs.set i Pc.loopHead }
  | trySucc (hx : s.exited = false) (c : Credential) (hpc : s.pcs[i]? = some (Pc.callTry c))
    (hr : (cfg.attempt c).ret = some 1) :
    Step cfg i s { s with
      out := s.out ++ (cfg.attempt c).out
      tries := s.tries ++ [⟨i, c, some 1⟩]
      pcs := s.pcs.set i (Pc.report c) }
  | report (hx : s.exited = false) (c : Credential) (hpc : s.pcs[i]? = some (Pc.report c)) :
    Step cfg i s { s with
      out := s.out ++ [Out.runSuccess c.username c.password]
      pcs := s.pcs.set i (Pc.setQuit c) }
  | setQuit (hx : s.exited = false) (c : Credential) (hpc : s.pcs[i]? = some (Pc.setQuit c)) :
    Step cfg i s { s with
      quit := 1
      quitWrites := s.quitWrites + 1
      pcs := s.pcs.set i Pc.stopped }

/-! ### Weights and invariants -/

/-- Worth 1 when the worker holds a credential that makes `try` return 1 and has
not executed `quit = 1` for it yet. -/
def Pc.authHeld (cfg : Config) : Pc → Nat
  | .callTry c => if (cfg.attempt c).ret = some 1 then 1 else 0
  | .report _ => 1
  | .setQuit _ => 1
  | _ => 0

/-- Worth 1 when `try` returned 1 to the worker and it has not executed `quit = 1` yet. -/
def Pc.tryDone : Pc → Nat
  | .report _ => 1
  | .setQuit _ => 1
  | _ => 0

/-- Worth 1 when the worker printed its success report and has not executed `quit = 1` yet. -/
def Pc.reported : Pc → Nat
  | .setQuit _ => 1
  | _ => 0

/-- An upper bound of the number of steps the worker takes before it reads a line or stops. -/
def Pc.weight : Pc → Nat
  | .loopHead => 2
  | .callGetpassword => 1
  | .callTry _ => 3
  | .report _ => 2
  | .setQuit _ => 1
  | .stopped => 0
  | .inExit => 0

/-- The sum of a weight over the workers. -/
def wsum (f : Pc → Nat) (pcs : List Pc) : Nat := (pcs.map f).sum

/-- The number of lines still unread whose credential makes `try` return 1. -/
def authLeft (cfg : Config) (s : State) : Nat := (lines s.stdin).countP (authLine cfg)

/-- The counts that every step keeps in balance: `a0` is the number of lines of
the whole input whose credential makes `try` return 1. -/
structure Counts (cfg : Config) (a0 : Nat) (s : State) : Prop where
  auth : authLeft cfg s + wsum (Pc.authHeld cfg) s.pcs + s.quitWrites = a0
  runLines : s.out.countP Out.isRunSuccess = wsum Pc.reported s.pcs + s.quitWrites
  tryLines : s.out.countP Out.isTrySuccess = wsum Pc.tryDone s.pcs + s.quitWrites
  tryOnes : s.tries.countP (fun t => decide (t.ret = some 1)) = wsum Pc.tryDone s.pcs + s.quitWrites
  flag : (s.quit = 0 ∧ s.quitWrites = 0) ∨ (s.quit = 1 ∧ 1 ≤ s.quitWrites)

/-- The credential is what `getpassword` made of a line that was read. -/
def FromRead (reads : List (Nat × List Char)) (c : Credential) : Prop :=
  ∃ l ∈ reads.map Prod.snd, splitLine l = some c

instance (reads : List (Nat × List Char)) (c : Credential) : Decidable (FromRead reads c) := by
  unfold FromRead; infer_instance

/-- The credential a worker has in hand, if any. -/
def Pc.cred? : Pc → Option Credential
  | .callTry c => some c
  | .report c => some c
  | .setQuit c => some c
  | _ => none

/-- The credential for which `try` returned nonzero to the worker, if it is past that. -/
def Pc.won? : Pc → Option Credential
  | .report c => some c
  | .setQuit c => some c
  | _ => none

/-- The facts about the record of a run that every step keeps. -/
structure Traced (cfg : Config) (inp : List Char) (n : Nat) (s : State) : Prop where
  consumed : lines inp = s.reads.map Prod.snd ++ lines s.stdin
  held : ∀ pc ∈ s.pcs, ∀ c, pc.cred? = some c → FromRead s.reads c
  won : ∀ pc ∈ s.pcs, ∀ c, pc.won? = some c → (cfg.attempt c).ret = some 1
  tried : ∀ t ∈ s.tries, FromRead s.reads t.cred ∧ t.ret = (cfg.attempt t.cred).ret
  printed : ∀ o ∈ s.out, o.isSuccess = true →
    ∃ c, (o = .trySuccess c.username c.password ∨ o = .runSuccess c.username c.password) ∧
      (cfg.attempt c).ret = some 1 ∧ FromRead s.reads c
  exit : s.exited = true → ∃ t ∈ s.tries, t.ret = none
  stop : ∀ pc ∈ s.pcs, pc = .stopped →
    s.quit ≠ 0 ∨ s.stdin = [] ∨ ∃ l ∈ s.reads.map Prod.snd, splitLine l = none
  size : s.pcs.length = n

/-- A bound of the number of steps still to come. -/
def State.measure (s : State) : Nat :=
  3 * (lines s.stdin).length + wsum Pc.weight s.pcs + (if s.exited = true then 0 else 1)

/-- No thread is inside `exit` unless the process is over. -/
def NoneInExit (s : State) : Prop := ∀ pc ∈ s.pcs, pc = Pc.inExit → s.exited = true

/-- The line is one `getpassword` refuses (it returns 0 although a line was read). -/
def refusedLine (l : List Char) : Bool := (splitLine l).isNone

/-- The line is one `getpassword` refuses, or `try` returns 0 for its credential:
it neither authenticates nor ends the process. -/
def failsLine (cfg : Config) (l : List Char) : Bool :=
  match splitLine l with
  | some c => decide ((cfg.attempt c).ret = some 0)
  | none => true

/-- The elements of a list up to and including the `n`-th that satisfies `p`;
the whole list when fewer than `n` do. -/
def takeThroughNth {α : Type} (p : α → Bool) : Nat → List α → List α
  | 0, _ => []
  | _ + 1, [] => []
  | n + 1, x :: xs => x :: takeThroughNth p (if p x then n else n + 1) xs

/-- Worth 1 when the worker has stopped. -/
def Pc.halted : Pc → Nat
  | .stopped => 1
  | _ => 0

/-- The number of refused lines among the lines read so far. -/
def refusedRead (s : State) : Nat := (s.reads.map Prod.snd).countP refusedLine

/-- What every step keeps true of the refused lines: each has stopped a worker of
its own; as long as the flag is unset and the input is not used up no worker
has stopped for another reason; and before the last line was read fewer
refused lines had been read than there are workers. -/
structure Refusals (s : State) : Prop where
  le : refusedRead s ≤ wsum Pc.halted s.pcs
  eq : s.quit ≠ 0 ∨ s.stdin = [] ∨ wsum Pc.halted s.pcs = refusedRead s
  last : 1 ≤ s.pcs.length →
    ((s.reads.map Prod.snd).dropLast).countP refusedLine < s.pcs.length

/-- The line is one `getpassword` accepts and `try` returns (0 or 1) for its credential. -/
def triedLine (cfg : Config) (l : List Char) : Bool :=
  match splitLine l with
  | some c => decide ((cfg.attempt c).ret ≠ none)
  | none => false

/-- A libssh that refuses an empty option value, as libssh does for an empty
user name, and whose server accepts no password. -/
def strictLib : Libssh :=
  { ssh_options_set := fun _ v => if v = [] then -1 else 0
    ssh_connect := fun _ _ _ => 0
    ssh_userauth_password := fun _ _ _ _ => 1 }

/-- A configuration with `strictLib`. -/
def strictCfg : Config :=
  { lib := strictLib, verbose := 0, host := "testhost".toList, port := 2222 }

/-- The credential the worker got from `getpassword` and has not passed to `try` yet. -/
def Pc.pending : Pc → List Credential
  | .callTry c => [c]
  | _ => []

/-- The worker is in the loop and `try` has not returned nonzero to it. -/
def Pc.running : Pc → Prop
  | .loopHead => True
  | .callGetpassword => True
  | .callTry _ => True
  | _ => False

instance (pc : Pc) : Decidable pc.running := by
  cases pc <;> unfold Pc.running <;> infer_instance

/-- What holds during a run of a single worker, which stands at `pc`. -/
structure Single (s : State) (pc : Pc) : Prop where
  one : s.pcs = [pc]
  accepted : (s.reads.map Prod.snd).filterMap splitLine = s.tries.map Trial.cred ++ pc.pending
  zero : ∀ t ∈ s.tries.dropLast, t.ret = some 0
  running : pc.running → ∀ t ∈ s.tries, t.ret = some 0
  lastbad : ∀ l ∈ (s.reads.map Prod.snd).dropLast, splitLine l ≠ none
  norefuse : pc ≠ Pc.stopped → ∀ l ∈ s.reads.map Prod.snd, splitLine l ≠ none

/-- The calls of `try` made by worker `i`. -/
def triesOf (s : State) (i : Nat) : List Trial := s.tries.filter (fun t => decide (t.worker = i))

/-- A worker that is about to report or to set the flag has just got 1 from its own `try`. -/
def OwnSuccess (s : State) : Prop :=
  ∀ (i : Nat) (c : Credential),
    (s.pcs[i]? = some (Pc.report c) ∨ s.pcs[i]? = some (Pc.setQuit c)) →
    (triesOf s i).getLast? = some ⟨i, c, some 1⟩

/-! ### Streams of well-formed lines -/

/-- The elements of a list up to and including the first that satisfies `p`;
the whole list when none does. -/
def takeThrough {α : Type} (p : α → Bool) : List α → List α
  | [] => []
  | x :: xs => if p x then [x] else x :: takeThrough p xs

/-- The call of `try` for the credential does not return 0: it returns 1 or ends the process. -/
def stops (cfg : Config) (c : Credential) : Bool := decide ((cfg.attempt c).ret ≠ some 0)

/-- The line `username:password` with its newline. -/
def Credential.line (c : Credential) : List Char := c.username ++ ':' :: (c.password ++ ['\n'])

/-- The line `username:password` without a newline, as a last line may be. -/
def Credential.lastLine (c : Credential) : List Char := c.username ++ ':' :: c.password

/-- A well-formed line: the user name holds no colon, newline or NUL, the password is
not empty and holds no newline or NUL. -/
def Credential.WellFormed (c : Credential) : Prop :=
  ':' ∉ c.username ∧ '\n' ∉ c.username ∧ NUL ∉ c.username ∧
    c.password ≠ [] ∧ '\n' ∉ c.password ∧ NUL ∉ c.password

instance (c : Credential) : Decidable c.WellFormed := by
  unfold Credential.WellFormed; infer_instance

/-- The stream made of the lines of `ps`, each with its newline, then of the line
of `last`, if any, without a newline. -/
def streamOf : List Credential → Option Credential → List Char
  | [], none => []
  | [], some c => c.lastLine
  | c :: cs, last => c.line ++ streamOf cs last

/-- The lines of `streamOf ps last`. -/
def linesOf (ps : List Credential) (last : Option Credential) : List (List Char) :=
  ps.map Credential.line ++ last.toList.map Credential.lastLine

/-! ## Theorems -/

/-! ### The input as lines -/

theorem readLine_length (inp : List Char) : (readLine inp).2.length ≤ inp.length := by
  induction inp with
  | nil => simp [readLine]
  | cons c cs ih =>
    unfold readLine
    split
    · simp
    · simp only [List.length_cons]; omega

theorem getline_length {inp l rest : List Char} (h : getline inp = some (l, rest)) :
    rest.length < inp.length := by
  cases inp with
  | nil => simp [getline] at h
  | cons c cs =>
    simp only [getline, Option.some.injEq] at h
    have h2 : (readLine (c :: cs)).2 = rest := by rw [h]
    rw [← h2]
    unfold readLine
    split
    · simp
    · have := readLine_length cs
      simp only [List.length_cons]; omega

theorem linesAux_eq (n : Nat) : ∀ (m : Nat) (inp : List Char),
    inp.length ≤ n → inp.length ≤ m → linesAux n inp = linesAux m inp := by
  induction n with
  | zero =>
    intro m inp h _
    have : inp = [] := List.length_eq_zero.mp (by omega)
    subst this
    cases m <;> simp [linesAux, getline]
  | succ n ih =>
    intro m inp h1 h2
    cases hg : getline inp with
    | none =>
      cases m with
      | zero =>
        have : inp = [] := List.length_eq_zero.mp (by omega)
        subst this
        simp [linesAux, getline]
      | succ m => simp [linesAux, hg]
    | some lr =>
      obtain ⟨l, rest⟩ := lr
      have hlen := getline_length hg
      cases m with
      | zero => omega
      | succ m =>
        simp only [linesAux, hg]
        rw [ih m rest (by omega) (by omega)]

theorem lines_nil : lines [] = [] := by
  simp [lines, linesAux]

theorem lines_of_getline {inp l rest : List Char} (h : getline inp = some (l, rest)) :
    lines inp = l :: lines rest := by
  have hlen := getline_length h
  unfold lines
  cases hn : inp.length with
  | zero => omega
  | succ n =>
    simp only [linesAux, h]
    rw [linesAux_eq n rest.length rest (by omega) (by omega)]

/-! ### What `try` returns and prints -/

theorem getline_eq_none {inp : List Char} : getline inp = none ↔ inp = [] := by
  cases inp <;> simp [getline]

theorem try_ret_cases (lib : Libssh) (v : Int) (h u p : List Char) (port : Int) :
    (try_ lib v h u p port).ret = none ∨ (try_ lib v h u p port).ret = some 0 ∨
      (try_ lib v h u p port).ret = some 1 := by
  unfold try_
  simp only
  split_ifs <;> simp

theorem try_out_trySuccess (lib : Libssh) (v : Int) (h u p : List Char) (port : Int) :
    (try_ lib v h u p port).out.countP Out.isTrySuccess =
      if (try_ lib v h u p port).ret = some 1 then 1 else 0 := by
  unfold try_
  simp only
  split_ifs <;> simp_all [List.countP_append, List.countP_cons, Out.isTrySuccess]

theorem try_out_runSuccess (lib : Libssh) (v : Int) (h u p : List Char) (port : Int) :
    (try_ lib v h u p port).out.countP Out.isRunSuccess = 0 := by
  unfold try_
  simp only
  split_ifs <;> simp_all [List.countP_append, List.countP_cons, Out.isRunSuccess]

/-! ### Steps and runs -/

theorem try_out_success_cred (lib : Libssh) (v : Int) (h u p : List Char) (port : Int) (o : Out)
    (ho : o ∈ (try_ lib v h u p port).out) (hs : o.isSuccess = true) :
    o = Out.trySuccess u p ∧ (try_ lib v h u p port).ret = some 1 := by
  unfold try_ at ho ⊢
  simp only at ho ⊢
  split_ifs at ho ⊢ <;> simp_all [Out.isSuccess, Out.isTrySuccess, Out.isRunSuccess] <;>
    (rcases ho with rfl | rfl <;> simp_all [Out.isSuccess, Out.isTrySuccess, Out.isRunSuccess])

theorem step_spec {cfg : Config} {i : Nat} {s s1 : State} (h : step cfg i s = some s1) :
    Step cfg i s s1 := by
  unfold step at h
  split at h
  · simp at h
  · rename_i hx
    have hx : s.exited = false := by simpa using hx
    split at h
    · simp at h
    · simp at h
    · simp at h
    · rename_i hpc
      simp only [Option.some.injEq] at h
      subst h
      by_cases hq : s.quit = 0
      · simp only [hq, if_true]
        have := @Step.loopGo cfg i s hx hpc hq
        simpa [hq] using this
      · simp only [hq, if_false]
        exact Step.loopStop hx hpc hq
    · rename_i hpc
      simp only [Option.some.injEq] at h
      subst h
      unfold getpassword
      cases hg : getline s.stdin with
      | none =>
        have hin := getline_eq_none.mp hg
        have := @Step.readEof cfg i s hx hpc hin
        simpa using this
      | some lr =>
        obtain ⟨l, rest⟩ := lr
        cases hs : splitLine l with
        | none =>
          have := @Step.readBad cfg i s hx hpc l rest hg hs
          simpa [hs] using this
        | some c =>
          have := @Step.readCred cfg i s hx hpc l rest c hg hs
          simpa [hs] using this
    · rename_i c hpc
      rcases try_ret_cases cfg.lib cfg.verbose cfg.host c.username c.password cfg.port with
        hr | hr | hr
      · have hr2 : (cfg.attempt c).ret = none := hr
        simp only [hr2, Option.some.injEq] at h
        subst h
        exact Step.tryExit hx c hpc hr2
      · have hr2 : (cfg.attempt c).ret = some 0 := hr
        simp only [hr2, Option.some.injEq] at h
        subst h
        have := Step.tryFail hx c hpc hr2
        simpa using this
      · have hr2 : (cfg.attempt c).ret = some 1 := hr
        simp only [hr2, Option.some.injEq] at h
        subst h
        have := Step.trySucc hx c hpc hr2
        simpa using this
    · rename_i c hpc
      simp only [Option.some.injEq] at h
      subst h
      exact Step.report hx c hpc
    · rename_i c hpc
      simp only [Option.some.injEq] at h
      subst h
      exact Step.setQuit hx c hpc

/-- A property that holds at the start and that every step keeps holds during every run. -/
theorem exec_induction (cfg : Config) (P : State → Prop)
    (hstep : ∀ (s s1 : State) (i : Nat), P s → Step cfg i s s1 → P s1) :
    ∀ (sch : List Nat) (s : State), P s → P (exec cfg sch s) := by
  intro sch
  induction sch with
  | nil => intro s h; exact h
  | cons i sch ih =>
    intro s h
    unfold exec
    cases hs : step cfg i s with
    | none => exact ih s h
    | some s1 => exact ih s1 (hstep s s1 i h (step_spec hs))

/-! ### C strings and `splitLine` -/

theorem exec_append (cfg : Config) (a b : List Nat) (s : State) :
    exec cfg (a ++ b) s = exec cfg b (exec cfg a s) := by
  induction a generalizing s with
  | nil => rfl
  | cons i a ih =>
    simp only [List.cons_append, exec]
    cases step cfg i s <;> simp [ih]

theorem strchr_append_hit (u r : List Char) (c : Char) (hc : c ∉ u) (hn : NUL ∉ u) :
    strchr (u ++ c :: r) c = some u.length := by
  induction u with
  | nil => simp [strchr]
  | cons x u ih =>
    simp only [List.mem_cons, not_or] at hc hn
    have h1 : ¬ x = c := fun h => hc.1 h.symm
    have h2 : ¬ x = NUL := fun h => hn.1 h.symm
    simp [strchr, h1, h2, ih hc.2 hn.2]

theorem strchr_none_of_not_mem (p : List Char) (c : Char) (hc : c ≠ NUL) (h : c ∉ p) :
    strchr p c = none := by
  induction p with
  | nil => simp [strchr, hc]
  | cons x p ih =>
    simp only [List.mem_cons, not_or] at h
    have h1 : ¬ x = c := fun e => h.1 e.symm
    simp only [strchr, h1, if_false]
    split
    · rfl
    · simp [ih h.2]

theorem cstr_append_nul (u r : List Char) (hn : NUL ∉ u) : cstr (u ++ NUL :: r) = u := by
  induction u with
  | nil => simp [cstr]
  | cons x u ih =>
    simp only [List.mem_cons, not_or] at hn
    have h2 : ¬ x = NUL := fun h => hn.1 h.symm
    simp [cstr, h2, ih hn.2]

theorem cstr_of_not_mem (p : List Char) (hn : NUL ∉ p) : cstr p = p := by
  induction p with
  | nil => simp [cstr]
  | cons x p ih =>
    simp only [List.mem_cons, not_or] at hn
    have h2 : ¬ x = NUL := fun h => hn.1 h.symm
    simp [cstr, h2, ih hn.2]

theorem set_mid (u r : List Char) (x y : Char) : (u ++ x :: r).set u.length y = u ++ y :: r := by
  induction u with
  | nil => simp
  | cons a u ih => simp [ih]

theorem not_mem_cstr_of_strchr_none (r : List Char) (c : Char) (h : strchr r c = none) :
    c ∉ cstr r := by
  induction r with
  | nil => simp [cstr]
  | cons x xs ih =>
    unfold strchr at h
    unfold cstr
    by_cases h1 : x = c
    · simp [h1] at h
    · by_cases h2 : x = NUL
      · simp [h2]
      · simp only [h1, h2, if_false, Option.map_eq_none'] at h
        simp only [h2, if_false, List.mem_cons, not_or]
        exact ⟨fun e => h1 e.symm, ih h⟩

theorem not_mem_cstr_set_of_strchr (r : List Char) (c : Char) (j : Nat) (hc : c ≠ NUL)
    (h : strchr r c = some j) : c ∉ cstr (r.set j NUL) := by
  induction r generalizing j with
  | nil => simp [strchr, hc] at h
  | cons x xs ih =>
    unfold strchr at h
    by_cases h1 : x = c
    · simp only [h1, if_true, Option.some.injEq] at h
      subst h
      simp [cstr]
    · by_cases h2 : x = NUL
      · have h3 : ¬ NUL = c := fun e => hc e.symm
        simp [h2, h3] at h
      · simp only [h1, h2, if_false, Option.map_eq_some'] at h
        obtain ⟨k, hk, rfl⟩ := h
        simp only [List.set_cons_succ, cstr, h2, if_false, List.mem_cons, not_or]
        exact ⟨fun e => h1 e.symm, ih k hk⟩

/-- A line `u:p` with its newline: split at the first colon, the newline dropped. -/
theorem splitLine_newline (u p : List Char) (hu1 : ':' ∉ u) (hu2 : NUL ∉ u)
    (hp1 : '\n' ∉ p) (hp2 : NUL ∉ p) :
    splitLine (u ++ ':' :: (p ++ ['\n'])) = some ⟨u, p⟩ := by
  have hb : byteAt (u ++ ':' :: (p ++ ['\n'])) (u.length + 1) ≠ NUL := by
    unfold byteAt
    rw [List.getD_append_right _ _ _ _ (by omega)]
    have : u.length + 1 - u.length = 1 := by omega
    rw [this]
    cases p with
    | nil => simp; decide
    | cons x p =>
      simp only [List.mem_cons, not_or] at hp2
      simpa using fun e => hp2.1 e.symm
  have hd : List.drop (u.length + 1) (u ++ NUL :: (p ++ ['\n'])) = p ++ ['\n'] := by
    rw [List.drop_append]; rfl
  have hd2 : List.drop (u.length + 1) (u ++ NUL :: (p ++ [NUL])) = p ++ [NUL] := by
    rw [List.drop_append]; rfl
  have hset : (u ++ NUL :: (p ++ ['\n'])).set (u.length + 1 + p.length) NUL
      = u ++ NUL :: (p ++ [NUL]) := by
    rw [List.set_append_right _ _ (by omega)]
    have : u.length + 1 + p.length - u.length = p.length + 1 := by omega
    rw [this, List.set_cons_succ, set_mid]
  unfold splitLine
  rw [strchr_append_hit u _ ':' hu1 hu2]
  simp only [hb, if_false, set_mid, hd]
  rw [strchr_append_hit p [] '\n' hp1 hp2]
  simp only [hset, hd2]
  rw [cstr_append_nul u _ hu2, cstr_append_nul p [] hp2]

/-- A last line `u:p` that ends with the input: split at the first colon. -/
theorem splitLine_eof (u p : List Char) (hu1 : ':' ∉ u) (hu2 : NUL ∉ u)
    (hp0 : p ≠ []) (hp1 : '\n' ∉ p) (hp2 : NUL ∉ p) :
    splitLine (u ++ ':' :: p) = some ⟨u, p⟩ := by
  have hb : byteAt (u ++ ':' :: p) (u.length + 1) ≠ NUL := by
    unfold byteAt
    rw [List.getD_append_right _ _ _ _ (by omega)]
    have : u.length + 1 - u.length = 1 := by omega
    rw [this]
    cases p with
    | nil => exact absurd rfl hp0
    | cons x p =>
      simp only [List.mem_cons, not_or] at hp2
      simpa using fun e => hp2.1 e.symm
  have hd : List.drop (u.length + 1) (u ++ NUL :: p) = p := by
    rw [List.drop_append]; rfl
  unfold splitLine
  rw [strchr_append_hit u _ ':' hu1 hu2]
  simp only [hb, if_false, set_mid, hd]
  rw [strchr_none_of_not_mem p '\n' (by decide) hp1]
  simp only [hd]
  rw [cstr_append_nul u _ hu2, cstr_of_not_mem p hp2]

/-- A buffer with no colon at all is refused. -/
theorem splitLine_no_colon (l : List Char) (h : ':' ∉ l) : splitLine l = none := by
  unfold splitLine
  rw [strchr_none_of_not_mem l ':' (by decide) h]

/-- The password `getpassword` stores never holds a newline. -/
theorem splitLine_password_no_newline (buf : List Char) (c : Credential)
    (h : splitLine buf = some c) : '\n' ∉ c.password := by
  unfold splitLine at h
  split at h
  · simp at h
  · rename_i i hi
    split at h
    · simp at h
    · simp only [Option.some.injEq] at h
      subst h
      simp only
      split
      · rename_i j hj
        rw [← List.set_drop]
        exact not_mem_cstr_set_of_strchr _ '\n' j (by decide) hj
      · rename_i hj
        exact not_mem_cstr_of_strchr_none _ '\n' hj

theorem readLine_line (l rest : List Char) (hl : '\n' ∉ l) :
    readLine (l ++ '\n' :: rest) = (l ++ ['\n'], rest) := by
  induction l with
  | nil => simp [readLine]
  | cons x l ih =>
    simp only [List.mem_cons, not_or] at hl
    have h1 : ¬ x = '\n' := fun e => hl.1 e.symm
    simp [readLine, h1, ih hl.2]

theorem readLine_last (l : List Char) (hl : '\n' ∉ l) : readLine l = (l, []) := by
  induction l with
  | nil => simp [readLine]
  | cons x l ih =>
    simp only [List.mem_cons, not_or] at hl
    have h1 : ¬ x = '\n' := fun e => hl.1 e.symm
    simp [readLine, h1, ih hl.2]

theorem getline_line (l rest : List Char) (hl : '\n' ∉ l) :
    getline (l ++ '\n' :: rest) = some (l ++ ['\n'], rest) := by
  have := readLine_line l rest hl
  cases h : l ++ '\n' :: rest with
  | nil => simp at h
  | cons x xs => rw [h] at this; simp [getline, this]

/-! ### The counting invariant -/

theorem getline_last (l : List Char) (h0 : l ≠ []) (hl : '\n' ∉ l) :
    getline l = some (l, []) := by
  have := readLine_last l hl
  cases l with
  | nil => exact absurd rfl h0
  | cons x xs => simp [getline, this]

theorem wsum_set (f : Pc → Nat) (l : List Pc) (i : Nat) (pc x : Pc) (h : l[i]? = some pc) :
    wsum f (l.set i x) + f pc = wsum f l + f x := by
  induction l generalizing i with
  | nil => simp at h
  | cons a l ih =>
    cases i with
    | zero =>
      simp only [List.getElem?_cons_zero, Option.some.injEq] at h
      subst h
      simp only [wsum, List.set_cons_zero, List.map_cons, List.sum_cons]
      omega
    | succ i =>
      simp only [List.getElem?_cons_succ] at h
      have := ih i h
      simp only [wsum, List.set_cons_succ, List.map_cons, List.sum_cons] at this ⊢
      omega

theorem wsum_replicate (f : Pc → Nat) (n : Nat) (pc : Pc) :
    wsum f (List.replicate n pc) = n * f pc := by
  induction n with
  | zero => simp [wsum]
  | succ n ih =>
    simp only [wsum, List.replicate_succ, List.map_cons, List.sum_cons] at ih ⊢
    rw [ih]; ring

theorem wsum_eq_zero_of_forall (f : Pc → Nat) (l : List Pc) (h : ∀ pc ∈ l, f pc = 0) :
    wsum f l = 0 := by
  induction l with
  | nil => simp [wsum]
  | cons a l ih =>
    simp only [wsum, List.map_cons, List.sum_cons] at ih ⊢
    rw [h a (List.mem_cons_self _ _), ih (fun pc hp => h pc (List.mem_cons_of_mem _ hp))]

theorem counts_init (cfg : Config) (inp : List Char) (n : Nat) :
    Counts cfg ((lines inp).countP (authLine cfg)) (init inp n) := by
  constructor <;> simp [init, authLeft, wsum_replicate, Pc.authHeld, Pc.reported, Pc.tryDone]

theorem getpassword_out_counts (cfg : Config) (c : Credential) (f : Out → Bool)
    (hf : f (Out.parsed c.username c.password) = false) :
    List.countP f (if cfg.verbose ≥ 3 then [Out.parsed c.username c.password] else []) = 0 := by
  split <;> simp [hf]

theorem counts_step (cfg : Config) (a0 : Nat) (s s1 : State) (i : Nat)
    (h : Counts cfg a0 s) (hst : Step cfg i s s1) : Counts cfg a0 s1 := by
  obtain ⟨h1, h2, h3, h4, h5⟩ := h
  have tl := fun c : Credential =>
    try_out_trySuccess cfg.lib cfg.verbose cfg.host c.username c.password cfg.port
  have rl := fun c : Credential =>
    try_out_runSuccess cfg.lib cfg.verbose cfg.host c.username c.password cfg.port
  cases hst with
  | loopGo hx hpc hq =>
    have e1 := wsum_set (Pc.authHeld cfg) s.pcs i _ Pc.callGetpassword hpc
    have e2 := wsum_set Pc.reported s.pcs i _ Pc.callGetpassword hpc
    have e3 := wsum_set Pc.tryDone s.pcs i _ Pc.callGetpassword hpc
    simp only [Pc.authHeld, Pc.reported, Pc.tryDone] at e1 e2 e3
    constructor <;> simp only [authLeft] at * <;> first | omega
  | loopStop hx hpc hq =>
    have e1 := wsum_set (Pc.authHeld cfg) s.pcs i _ Pc.stopped hpc
    have e2 := wsum_set Pc.reported s.pcs i _ Pc.stopped hpc
    have e3 := wsum_set Pc.tryDone s.pcs i _ Pc.stopped hpc
    simp only [Pc.authHeld, Pc.reported, Pc.tryDone] at e1 e2 e3
    constructor <;> simp only [authLeft] at * <;> first | omega
  | readEof hx hpc hin =>
    have e1 := wsum_set (Pc.authHeld cfg) s.pcs i _ Pc.stopped hpc
    have e2 := wsum_set Pc.reported s.pcs i _ Pc.stopped hpc
    have e3 := wsum_set Pc.tryDone s.pcs i _ Pc.stopped hpc
    simp only [Pc.authHeld, Pc.reported, Pc.tryDone] at e1 e2 e3
    constructor <;> simp only [authLeft] at * <;> first | omega
  | readBad hx hpc l rest hg hs =>
    have e1 := wsum_set (Pc.authHeld cfg) s.pcs i _ Pc.stopped hpc
    have e2 := wsum_set Pc.reported s.pcs i _ Pc.stopped hpc
    have e3 := wsum_set Pc.tryDone s.pcs i _ Pc.stopped hpc
    simp only [Pc.authHeld, Pc.reported, Pc.tryDone] at e1 e2 e3
    have hl : authLine cfg l = false := by simp [authLine, hs]
    have e4 : authLeft cfg s = (lines rest).countP (authLine cfg) := by
      simp [authLeft, lines_of_getline hg, List.countP_cons, hl]
    constructor <;> simp only [authLeft] at * <;> first | omega
  | readCred hx hpc l rest c hg hs =>
    have e1 := wsum_set (Pc.authHeld cfg) s.pcs i _ (Pc.callTry c) hpc
    have e2 := wsum_set Pc.reported s.pcs i _ (Pc.callTry c) hpc
    have e3 := wsum_set Pc.tryDone s.pcs i _ (Pc.callTry c) hpc
    simp only [Pc.authHeld, Pc.reported, Pc.tryDone] at e1 e2 e3
    have e4 : authLeft cfg s = (lines rest).countP (authLine cfg) +
        (if (cfg.attempt c).ret = some 1 then 1 else 0) := by
      simp [authLeft, lines_of_getline hg, List.countP_cons, authLine, hs]
    have o1 := getpassword_out_counts cfg c Out.isRunSuccess rfl
    have o2 := getpassword_out_counts cfg c Out.isTrySuccess rfl
    constructor <;> simp only [authLeft, List.countP_append] at * <;> first | omega
  | tryExit hx c hpc hr =>
    have e1 := wsum_set (Pc.authHeld cfg) s.pcs i _ Pc.inExit hpc
    have e2 := wsum_set Pc.reported s.pcs i _ Pc.inExit hpc
    have e3 := wsum_set Pc.tryDone s.pcs i _ Pc.inExit hpc
    have t1 := tl c
    have r1 := rl c
    have hr2 : try_ cfg.lib cfg.verbose cfg.host c.username c.password cfg.port
      = cfg.attempt c := rfl
    rw [hr2] at t1 r1
    simp only [Pc.authHeld, Pc.reported, Pc.tryDone, hr] at e1 e2 e3 t1
    simp only [reduceCtorEq, if_false] at e1 t1
    constructor <;>
      simp only [authLeft, List.countP_append, List.countP_cons, List.countP_nil] at * <;>
      first | (simp only [reduceCtorEq, decide_False, Bool.false_eq_true, if_false]; omega) | omega
  | tryFail hx c hpc hr =>
    have e1 := wsum_set (Pc.authHeld cfg) s.pcs i _ Pc.loopHead hpc
    have e2 := wsum_set Pc.reported s.pcs i _ Pc.loopHead hpc
    have e3 := wsum_set Pc.tryDone s.pcs i _ Pc.loopHead hpc
    have t1 := tl c
    have r1 := rl c
    have hr2 : try_ cfg.lib cfg.verbose cfg.host c.username c.password cfg.port
      = cfg.attempt c := rfl
    rw [hr2] at t1 r1
    simp only [Pc.authHeld, Pc.reported, Pc.tryDone, hr] at e1 e2 e3 t1
    have hne : ¬ ((some 0 : Option Int) = some 1) := by simp
    simp only [hne, if_false] at e1 t1
    constructor <;>
      simp only [authLeft, List.countP_append, List.countP_cons, List.countP_nil] at * <;>
      first | (simp only [hne, decide_False, Bool.false_eq_true, if_false]; omega) | omega
  | trySucc hx c hpc hr =>
    have e1 := wsum_set (Pc.authHeld cfg) s.pcs i _ (Pc.report c) hpc
    have e2 := wsum_set Pc.reported s.pcs i _ (Pc.report c) hpc
    have e3 := wsum_set Pc.tryDone s.pcs i _ (Pc.report c) hpc
    have t1 := tl c
    have r1 := rl c
    have hr2 : try_ cfg.lib cfg.verbose cfg.host c.username c.password cfg.port
      = cfg.attempt c := rfl
    rw [hr2] at t1 r1
    simp only [Pc.authHeld, Pc.reported, Pc.tryDone, hr, if_true] at e1 e2 e3 t1
    constructor <;>
      simp only [authLeft, List.countP_append, List.countP_cons, List.countP_nil] at * <;>
      first | (simp only [decide_True, if_true]; omega) | omega
  | report hx c hpc =>
    have e1 := wsum_set (Pc.authHeld cfg) s.pcs i _ (Pc.setQuit c) hpc
    have e2 := wsum_set Pc.reported s.pcs i _ (Pc.setQuit c) hpc
    have e3 := wsum_set Pc.tryDone s.pcs i _ (Pc.setQuit c) hpc
    simp only [Pc.authHeld, Pc.reported, Pc.tryDone] at e1 e2 e3
    constructor <;>
      simp only [authLeft, List.countP_append, List.countP_cons, List.countP_nil,
        Out.isRunSuccess, Out.isTrySuccess] at * <;>
      first | (simp only [if_true, Bool.false_eq_true, if_false]; omega) | omega
  | setQuit hx c hpc =>
    have e1 := wsum_set (Pc.authHeld cfg) s.pcs i _ Pc.stopped hpc
    have e2 := wsum_set Pc.reported s.pcs i _ Pc.stopped hpc
    have e3 := wsum_set Pc.tryDone s.pcs i _ Pc.stopped hpc
    simp only [Pc.authHeld, Pc.reported, Pc.tryDone] at e1 e2 e3
    constructor
    · simp only [authLeft] at *; omega
    · simp only at *; omega
    · simp only at *; omega
    · simp only at *; omega
    · exact Or.inr ⟨rfl, Nat.le_add_left 1 _⟩

/-! ### Where credentials, trials and output lines come from -/

theorem counts_exec (cfg : Config) (inp : List Char) (n : Nat) (sch : List Nat) :
    Counts cfg ((lines inp).countP (authLine cfg)) (exec cfg sch (init inp n)) :=
  exec_induction cfg _ (fun s s1 i h hst => counts_step cfg _ s s1 i h hst) sch _
    (counts_init cfg inp n)

theorem FromRead.append {reads : List (Nat × List Char)} {c : Credential}
    (h : FromRead reads c) (more : List (Nat × List Char)) : FromRead (reads ++ more) c := by
  obtain ⟨l, hl, hs⟩ := h
  exact ⟨l, by simp only [List.map_append, List.mem_append]; exact Or.inl hl, hs⟩

theorem FromRead.last (reads : List (Nat × List Char)) (i : Nat) (l : List Char)
    (c : Credential) (hs : splitLine l = some c) : FromRead (reads ++ [(i, l)]) c :=
  ⟨l, by simp, hs⟩

theorem traced_init (cfg : Config) (inp : List Char) (n : Nat) : Traced cfg inp n (init inp n) := by
  constructor
  · simp [init]
  · intro pc hpc c hc
    have := List.eq_of_mem_replicate hpc
    subst this
    simp [Pc.cred?] at hc
  · intro pc hpc c hc
    have := List.eq_of_mem_replicate hpc
    subst this
    simp [Pc.won?] at hc
  · simp [init]
  · simp [init]
  · simp [init]
  · intro pc hpc hs
    have := List.eq_of_mem_replicate hpc
    subst this
    simp at hs
  · simp [init]

theorem traced_consumed_step {cfg : Config} {inp : List Char} {s s1 : State} {i : Nat}
    (h : lines inp = s.reads.map Prod.snd ++ lines s.stdin) (hst : Step cfg i s s1) :
    lines inp = s1.reads.map Prod.snd ++ lines s1.stdin := by
  cases hst with
  | readBad hx hpc l rest hg hs => rw [h, lines_of_getline hg]; simp
  | readCred hx hpc l rest c hg hs => rw [h, lines_of_getline hg]; simp
  | _ => exact h

/-- The reads only grow. -/
theorem step_reads {cfg : Config} {s s1 : State} {i : Nat} (hst : Step cfg i s s1) :
    ∃ more, s1.reads = s.reads ++ more := by
  cases hst with
  | readBad hx hpc l rest hg hs => exact ⟨[(i, l)], rfl⟩
  | readCred hx hpc l rest c hg hs => exact ⟨[(i, l)], rfl⟩
  | _ => exact ⟨[], by simp⟩

/-- A step changes the place of the one worker that moves. -/
theorem step_pcs {cfg : Config} {s s1 : State} {i : Nat} (hst : Step cfg i s s1) :
    ∃ pc x, s.pcs[i]? = some pc ∧ s1.pcs = s.pcs.set i x := by
  cases hst <;> exact ⟨_, _, by assumption, rfl⟩

theorem traced_held_step {cfg : Config} {s s1 : State} {i : Nat}
    (h : ∀ pc ∈ s.pcs, ∀ c, pc.cred? = some c → FromRead s.reads c) (hst : Step cfg i s s1) :
    ∀ pc ∈ s1.pcs, ∀ c, pc.cred? = some c → FromRead s1.reads c := by
  obtain ⟨more, hmore⟩ := step_reads hst
  have hold : ∀ pc ∈ s.pcs, ∀ c, pc.cred? = some c → FromRead s1.reads c := by
    intro pc hpc c hc
    rw [hmore]
    exact (h pc hpc c hc).append more
  intro pc hpc c hc
  cases hst with
  | readCred hx hpc0 l rest c0 hg hs =>
    rcases List.mem_or_eq_of_mem_set hpc with hm | rfl
    · exact hold pc hm c hc
    · simp only [Pc.cred?, Option.some.injEq] at hc
      subst hc
      exact FromRead.last _ _ _ _ hs
  | trySucc hx c0 hpc0 hr =>
    rcases List.mem_or_eq_of_mem_set hpc with hm | rfl
    · exact hold pc hm c hc
    · simp only [Pc.cred?, Option.some.injEq] at hc
      subst hc
      exact hold _ (List.getElem?_mem hpc0) _ rfl
  | report hx c0 hpc0 =>
    rcases List.mem_or_eq_of_mem_set hpc with hm | rfl
    · exact hold pc hm c hc
    · simp only [Pc.cred?, Option.some.injEq] at hc
      subst hc
      exact hold _ (List.getElem?_mem hpc0) _ rfl
  | _ =>
    rcases List.mem_or_eq_of_mem_set hpc with hm | rfl
    · exact hold pc hm c hc
    · simp [Pc.cred?] at hc

theorem traced_won_step {cfg : Config} {s s1 : State} {i : Nat}
    (h : ∀ pc ∈ s.pcs, ∀ c, pc.won? = some c → (cfg.attempt c).ret = some 1)
    (hst : Step cfg i s s1) :
    ∀ pc ∈ s1.pcs, ∀ c, pc.won? = some c → (cfg.attempt c).ret = some 1 := by
  intro pc hpc c hc
  cases hst with
  | trySucc hx c0 hpc0 hr =>
    rcases List.mem_or_eq_of_mem_set hpc with hm | rfl
    · exact h pc hm c hc
    · simp only [Pc.won?, Option.some.injEq] at hc
      subst hc
      exact hr
  | report hx c0 hpc0 =>
    rcases List.mem_or_eq_of_mem_set hpc with hm | rfl
    · exact h pc hm c hc
    · simp only [Pc.won?, Option.some.injEq] at hc
      subst hc
      exact h _ (List.getElem?_mem hpc0) _ rfl
  | _ =>
    rcases List.mem_or_eq_of_mem_set hpc with hm | rfl
    · exact h pc hm c hc
    · simp [Pc.won?] at hc

theorem traced_tried_step {cfg : Config} {s s1 : State} {i : Nat}
    (hh : ∀ pc ∈ s.pcs, ∀ c, pc.cred? = some c → FromRead s.reads c)
    (h : ∀ t ∈ s.tries, FromRead s.reads t.cred ∧ t.ret = (cfg.attempt t.cred).ret)
    (hst : Step cfg i s s1) :
    ∀ t ∈ s1.tries, FromRead s1.reads t.cred ∧ t.ret = (cfg.attempt t.cred).ret := by
  obtain ⟨more, hmore⟩ := step_reads hst
  have hold : ∀ t ∈ s.tries, FromRead s1.reads t.cred ∧ t.ret = (cfg.attempt t.cred).ret := by
    intro t ht
    rw [hmore]
    exact ⟨(h t ht).1.append more, (h t ht).2⟩
  have hnew : ∀ c, s.pcs[i]? = some (Pc.callTry c) → FromRead s1.reads c := by
    intro c hc
    rw [hmore]
    exact (hh _ (List.getElem?_mem hc) c rfl).append more
  intro t ht
  cases hst with
  | tryExit hx c hpc hr =>
    simp only [List.mem_append, List.mem_singleton] at ht
    rcases ht with ht | rfl
    · exact hold t ht
    · exact ⟨hnew c hpc, hr.symm⟩
  | tryFail hx c hpc hr =>
    simp only [List.mem_append, List.mem_singleton] at ht
    rcases ht with ht | rfl
    · exact hold t ht
    · exact ⟨hnew c hpc, hr.symm⟩
  | trySucc hx c hpc hr =>
    simp only [List.mem_append, List.mem_singleton] at ht
    rcases ht with ht | rfl
    · exact hold t ht
    · exact ⟨hnew c hpc, hr.symm⟩
  | _ => exact hold t ht

theorem traced_printed_step {cfg : Config} {s s1 : State} {i : Nat}
    (hh : ∀ pc ∈ s.pcs, ∀ c, pc.cred? = some c → FromRead s.reads c)
    (hw : ∀ pc ∈ s.pcs, ∀ c, pc.won? = some c → (cfg.attempt c).ret = some 1)
    (h : ∀ o ∈ s.out, o.isSuccess = true →
      ∃ c, (o = .trySuccess c.username c.password ∨ o = .runSuccess c.username c.password) ∧
        (cfg.attempt c).ret = some 1 ∧ FromRead s.reads c)
    (hst : Step cfg i s s1) :
    ∀ o ∈ s1.out, o.isSuccess = true →
      ∃ c, (o = .trySuccess c.username c.password ∨ o = .runSuccess c.username c.password) ∧
        (cfg.attempt c).ret = some 1 ∧ FromRead s1.reads c := by
  obtain ⟨more, hmore⟩ := step_reads hst
  have hold : ∀ o ∈ s.out, o.isSuccess = true →
      ∃ c, (o = .trySuccess c.username c.password ∨ o = .runSuccess c.username c.password) ∧
        (cfg.attempt c).ret = some 1 ∧ FromRead s1.reads c := by
    intro o ho hs
    obtain ⟨c, h1, h2, h3⟩ := h o ho hs
    rw [hmore]
    exact ⟨c, h1, h2, h3.append more⟩
  have hnew : ∀ c, s.pcs[i]? = some (Pc.callTry c) → FromRead s1.reads c := by
    intro c hc
    rw [hmore]
    exact (hh _ (List.getElem?_mem hc) c rfl).append more
  have htry : ∀ c, s.pcs[i]? = some (Pc.callTry c) → ∀ o ∈ (cfg.attempt c).out,
      o.isSuccess = true →
      ∃ c, (o = .trySuccess c.username c.password ∨ o = .runSuccess c.username c.password) ∧
        (cfg.attempt c).ret = some 1 ∧ FromRead s1.reads c := by
    intro c hc o ho hs
    obtain ⟨e1, e2⟩ :=
      try_out_success_cred cfg.lib cfg.verbose cfg.host c.username c.password cfg.port o ho hs
    exact ⟨c, Or.inl e1, e2, hnew c hc⟩
  intro o ho hs
  cases hst with
  | readCred hx hpc l rest c hg hsl =>
    simp only [List.mem_append] at ho
    rcases ho with ho | ho
    · exact hold o ho hs
    · split at ho
      · simp only [List.mem_singleton] at ho
        subst ho
        simp [Out.isSuccess, Out.isTrySuccess, Out.isRunSuccess] at hs
      · simp at ho
  | tryExit hx c hpc hr =>
    simp only [List.mem_append] at ho
    rcases ho with ho | ho
    · exact hold o ho hs
    · exact htry c hpc o ho hs
  | tryFail hx c hpc hr =>
    simp only [List.mem_append] at ho
    rcases ho with ho | ho
    · exact hold o ho hs
    · exact htry c hpc o ho hs
  | trySucc hx c hpc hr =>
    simp only [List.mem_append] at ho
    rcases ho with ho | ho
    · exact hold o ho hs
    · exact htry c hpc o ho hs
  | report hx c hpc =>
    simp only [List.mem_append, List.mem_singleton] at ho
    rcases ho with ho | rfl
    · exact hold o ho hs
    · refine ⟨c, Or.inr rfl, hw _ (List.getElem?_mem hpc) c rfl, ?_⟩
      have := hh _ (List.getElem?_mem hpc) c rfl
      simpa using this
  | _ => exact hold o ho hs

theorem traced_exit_step {cfg : Config} {s s1 : State} {i : Nat} (hst : Step cfg i s s1) :
    s1.exited = true → ∃ t ∈ s1.tries, t.ret = none := by
  intro hx1
  cases hst with
  | tryExit hx c hpc hr => exact ⟨⟨i, c, none⟩, by simp, rfl⟩
  | _ => simp_all

theorem traced_stop_step {cfg : Config} {s s1 : State} {i : Nat}
    (h : ∀ pc ∈ s.pcs, pc = .stopped →
      s.quit ≠ 0 ∨ s.stdin = [] ∨ ∃ l ∈ s.reads.map Prod.snd, splitLine l = none)
    (hst : Step cfg i s s1) :
    ∀ pc ∈ s1.pcs, pc = .stopped →
      s1.quit ≠ 0 ∨ s1.stdin = [] ∨ ∃ l ∈ s1.reads.map Prod.snd, splitLine l = none := by
  intro pc hpc hs
  subst hs
  cases hst with
  | loopGo hx hpc0 hq =>
    rcases List.mem_or_eq_of_mem_set hpc with hm | he
    · exact h _ hm rfl
    · simp at he
  | loopStop hx hpc0 hq => exact Or.inl hq
  | readEof hx hpc0 hin => exact Or.inr (Or.inl hin)
  | readBad hx hpc0 l rest hg hsl => exact Or.inr (Or.inr ⟨l, by simp, hsl⟩)
  | readCred hx hpc0 l rest c hg hsl =>
    rcases List.mem_or_eq_of_mem_set hpc with hm | he
    · rcases h _ hm rfl with h1 | h1 | ⟨l0, hl0, hl1⟩
      · exact Or.inl h1
      · rw [h1] at hg; simp [getline] at hg
      · exact Or.inr (Or.inr ⟨l0, by
          simp only [List.map_append, List.mem_append]; exact Or.inl hl0, hl1⟩)
    · simp at he
  | tryExit hx c hpc0 hr =>
    rcases List.mem_or_eq_of_mem_set hpc with hm | he
    · exact h _ hm rfl
    · simp at he
  | tryFail hx c hpc0 hr =>
    rcases List.mem_or_eq_of_mem_set hpc with hm | he
    · exact h _ hm rfl
    · simp at he
  | trySucc hx c hpc0 hr =>
    rcases List.mem_or_eq_of_mem_set hpc with hm | he
    · exact h _ hm rfl
    · simp at he
  | report hx c hpc0 =>
    rcases List.mem_or_eq_of_mem_set hpc with hm | he
    · exact h _ hm rfl
    · simp at he
  | setQuit hx c hpc0 => exact Or.inl (by simp)

theorem traced_step (cfg : Config) (inp : List Char) (n : Nat) (s s1 : State) (i : Nat)
    (h : Traced cfg inp n s) (hst : Step cfg i s s1) : Traced cfg inp n s1 := by
  refine ⟨traced_consumed_step h.consumed hst, traced_held_step h.held hst,
    traced_won_step h.won hst, traced_tried_step h.held h.tried hst,
    traced_printed_step h.held h.won h.printed hst, traced_exit_step hst,
    traced_stop_step h.stop hst, ?_⟩
  obtain ⟨pc, x, _, hp⟩ := step_pcs hst
  rw [hp, List.length_set, h.size]

/-! ### Every run ends -/

theorem traced_exec (cfg : Config) (inp : List Char) (n : Nat) (sch : List Nat) :
    Traced cfg inp n (exec cfg sch (init inp n)) :=
  exec_induction cfg _ (fun s s1 i h hst => traced_step cfg inp n s s1 i h hst) sch _
    (traced_init cfg inp n)

theorem measure_step {cfg : Config} {s s1 : State} {i : Nat} (hst : Step cfg i s s1) :
    s1.measure + 1 ≤ s.measure := by
  cases hst with
  | loopGo hx hpc hq =>
    have e := wsum_set Pc.weight s.pcs i _ Pc.callGetpassword hpc
    simp only [Pc.weight] at e
    simp only [State.measure, hx]; omega
  | loopStop hx hpc hq =>
    have e := wsum_set Pc.weight s.pcs i _ Pc.stopped hpc
    simp only [Pc.weight] at e
    simp only [State.measure, hx]; omega
  | readEof hx hpc hin =>
    have e := wsum_set Pc.weight s.pcs i _ Pc.stopped hpc
    simp only [Pc.weight] at e
    simp only [State.measure, hx]; omega
  | readBad hx hpc l rest hg hs =>
    have e := wsum_set Pc.weight s.pcs i _ Pc.stopped hpc
    simp only [Pc.weight] at e
    simp only [State.measure, hx, lines_of_getline hg, List.length_cons]; omega
  | readCred hx hpc l rest c hg hs =>
    have e := wsum_set Pc.weight s.pcs i _ (Pc.callTry c) hpc
    simp only [Pc.weight] at e
    simp only [State.measure, hx, lines_of_getline hg, List.length_cons]; omega
  | tryExit hx c hpc hr =>
    have e := wsum_set Pc.weight s.pcs i _ Pc.inExit hpc
    simp only [Pc.weight] at e
    simp only [State.measure, hx]
    simp only [if_true, Bool.false_eq_true, if_false]; omega
  | tryFail hx c hpc hr =>
    have e := wsum_set Pc.weight s.pcs i _ Pc.loopHead hpc
    simp only [Pc.weight] at e
    simp only [State.measure, hx]; omega
  | trySucc hx c hpc hr =>
    have e := wsum_set Pc.weight s.pcs i _ (Pc.report c) hpc
    simp only [Pc.weight] at e
    simp only [State.measure, hx]; omega
  | report hx c hpc =>
    have e := wsum_set Pc.weight s.pcs i _ (Pc.setQuit c) hpc
    simp only [Pc.weight] at e
    simp only [State.measure, hx]; omega
  | setQuit hx c hpc =>
    have e := wsum_set Pc.weight s.pcs i _ Pc.stopped hpc
    simp only [Pc.weight] at e
    simp only [State.measure, hx]; omega

theorem stepsTaken_measure (cfg : Config) (sch : List Nat) :
    ∀ s : State, stepsTaken cfg sch s + (exec cfg sch s).measure ≤ s.measure := by
  induction sch with
  | nil => intro s; simp [stepsTaken, exec]
  | cons i sch ih =>
    intro s
    unfold stepsTaken exec
    cases hs : step cfg i s with
    | none => exact ih s
    | some s1 =>
      have h1 := ih s1
      have h2 := measure_step (step_spec hs)
      simp only
      omega

theorem measure_init (inp : List Char) (n : Nat) :
    (init inp n).measure = 3 * (lines inp).length + 2 * n + 1 := by
  simp [State.measure, init, wsum_replicate, Pc.weight]
  ring

theorem noneInExit_init (inp : List Char) (n : Nat) : NoneInExit (init inp n) := by
  intro pc hpc he
  have := List.eq_of_mem_replicate hpc
  subst this
  simp at he

theorem noneInExit_step (cfg : Config) (s s1 : State) (i : Nat) (h : NoneInExit s)
    (hst : Step cfg i s s1) : NoneInExit s1 := by
  intro pc hpc he
  subst he
  cases hst with
  | tryExit hx c hpc0 hr => rfl
  | _ =>
    rcases List.mem_or_eq_of_mem_set hpc with hm | he
    · exact h _ hm rfl
    · simp at he

theorem noneInExit_exec (cfg : Config) (inp : List Char) (n : Nat) (sch : List Nat) :
    NoneInExit (exec cfg sch (init inp n)) :=
  exec_induction cfg _ (noneInExit_step cfg) sch _ (noneInExit_init inp n)

/-- A worker that has not stopped can always move: nothing blocks it. -/
theorem step_isSome (cfg : Config) (s : State) (i : Nat) (pc : Pc) (hx : s.exited = false)
    (hpc : s.pcs[i]? = some pc) (h1 : pc ≠ Pc.stopped) (h2 : pc ≠ Pc.inExit) :
    (step cfg i s).isSome = true := by
  unfold step
  simp only [hx, Bool.false_eq_true, if_false, hpc]
  cases pc with
  | stopped => exact absurd rfl h1
  | inExit => exact absurd rfl h2
  | callTry c =>
    simp only
    cases (cfg.attempt c).ret <;> simp
  | _ => simp

theorem not_allStopped_index (s : State) (h : ¬ allStopped s) :
    ∃ (i : Nat) (pc : Pc), s.pcs[i]? = some pc ∧ pc ≠ Pc.stopped := by
  unfold allStopped at h
  push_neg at h
  obtain ⟨pc, hm, hne⟩ := h
  obtain ⟨i, hi⟩ := List.mem_iff_getElem?.mp hm
  exact ⟨i, pc, hi, hne⟩

theorem exec_finishes_aux (cfg : Config) (m : Nat) :
    ∀ s : State, s.measure ≤ m → NoneInExit s → ∃ sch, finished (exec cfg sch s) := by
  induction m with
  | zero =>
    intro s hm hn
    by_cases hf : finished s
    · exact ⟨[], hf⟩
    · exfalso
      unfold finished at hf
      push_neg at hf
      have hx : s.exited = false := by simpa using hf.1
      simp [State.measure, hx] at hm
  | succ m ih =>
    intro s hm hn
    by_cases hf : finished s
    · exact ⟨[], hf⟩
    · unfold finished at hf
      push_neg at hf
      have hx : s.exited = false := by simpa using hf.1
      obtain ⟨i, pc, hpc, hne⟩ := not_allStopped_index s hf.2
      have hne2 : pc ≠ Pc.inExit := by
        intro he
        have := hn pc (List.getElem?_mem hpc) he
        rw [hx] at this
        exact absurd this (by simp)
      have hsome := step_isSome cfg s i pc hx hpc hne hne2
      obtain ⟨s1, hs1⟩ := Option.isSome_iff_exists.mp hsome
      have hst := step_spec hs1
      have hdec := measure_step hst
      obtain ⟨sch, hsch⟩ := ih s1 (by omega) (noneInExit_step cfg s s1 i hn hst)
      exact ⟨i :: sch, by simp only [exec, hs1]; exact hsch⟩

/-- Every run can be carried on to its end. -/
theorem exec_finishes (cfg : Config) (inp : List Char) (n : Nat) (sch : List Nat) :
    ∃ more, finished (exec cfg (sch ++ more) (init inp n)) := by
  obtain ⟨more, h⟩ := exec_finishes_aux cfg _ (exec cfg sch (init inp n)) (le_refl _)
    (noneInExit_exec cfg inp n sch)
  exact ⟨more, by rw [exec_append]; exact h⟩

/-! ### Consequences of the invariants -/

/-- Once the process is over nothing moves. -/
theorem exec_of_exited (cfg : Config) (sch : List Nat) (s : State) (hx : s.exited = true) :
    exec cfg sch s = s := by
  induction sch with
  | nil => rfl
  | cons i sch ih => simp [exec, step, hx, ih]

theorem mem_reads_lines {cfg : Config} {inp : List Char} {n : Nat} {s : State}
    (h : Traced cfg inp n s) {l : List Char} (hl : l ∈ s.reads.map Prod.snd) : l ∈ lines inp := by
  rw [h.consumed]
  exact List.mem_append_left _ hl

theorem never_exits {cfg : Config} {inp : List Char} {n : Nat} {s : State}
    (h : Traced cfg inp n s) (hwf : ∀ l ∈ lines inp, triedLine cfg l = true) :
    s.exited = false := by
  by_contra hx
  have hx : s.exited = true := by simpa using hx
  obtain ⟨t, ht, hn⟩ := h.exit hx
  obtain ⟨⟨l, hl, hs⟩, hr⟩ := h.tried t ht
  have := hwf l (mem_reads_lines h hl)
  simp only [triedLine, hs, decide_eq_true_eq] at this
  exact this (hr ▸ hn)

theorem reads_owner (cfg : Config) (inp : List Char) (n : Nat) (sch : List Nat) :
    ∀ r ∈ (exec cfg sch (init inp n)).reads, r.1 < (exec cfg sch (init inp n)).pcs.length := by
  refine exec_induction cfg (fun s => ∀ r ∈ s.reads, r.1 < s.pcs.length) ?_ sch _ (by simp [init])
  intro s s1 i h hst r hr
  obtain ⟨pc, x, hpc, hp⟩ := step_pcs hst
  have hi : i < s.pcs.length := (List.getElem?_eq_some.mp hpc).1
  rw [hp, List.length_set]
  cases hst with
  | readBad hx hpc l rest hg hs =>
    simp only [List.mem_append, List.mem_singleton] at hr
    rcases hr with hr | rfl
    · exact h r hr
    · exact hi
  | readCred hx hpc l rest c hg hs =>
    simp only [List.mem_append, List.mem_singleton] at hr
    rcases hr with hr | rfl
    · exact h r hr
    · exact hi
  | _ => exact h r hr

theorem allStopped_sums {s : State} (h : allStopped s) (f : Pc → Nat) (hf : f Pc.stopped = 0) :
    wsum f s.pcs = 0 :=
  wsum_eq_zero_of_forall f s.pcs (fun pc hpc => by rw [h pc hpc]; exact hf)

theorem countP_isSuccess (l : List Out) :
    l.countP Out.isSuccess = l.countP Out.isTrySuccess + l.countP Out.isRunSuccess := by
  induction l with
  | nil => simp
  | cons o l ih =>
    simp only [List.countP_cons, ih]
    cases o <;> simp [Out.isSuccess, Out.isTrySuccess, Out.isRunSuccess] <;> omega

/-- Among the lines of an input that holds one winning line at most, two winning
lines are the same line. -/
theorem countP_le_one_unique {α : Type} (p : α → Bool) (l : List α) (h : l.countP p ≤ 1)
    (a b : α) (ha : a ∈ l) (hb : b ∈ l) (pa : p a = true) (pb : p b = true) : a = b := by
  induction l with
  | nil => simp at ha
  | cons x l ih =>
    simp only [List.countP_cons] at h
    simp only [List.mem_cons] at ha hb
    rcases ha with rfl | ha
    · rcases hb with rfl | hb
      · rfl
      · have : 0 < l.countP p := List.countP_pos_iff.mpr ⟨b, hb, pb⟩
        simp only [pa, if_true] at h
        omega
    · rcases hb with rfl | hb
      · have : 0 < l.countP p := List.countP_pos_iff.mpr ⟨a, ha, pa⟩
        simp only [pb, if_true] at h
        omega
      · exact ih (by omega) ha hb

theorem authLine_of_split {cfg : Config} {l : List Char} {c : Credential}
    (hs : splitLine l = some c) (hr : (cfg.attempt c).ret = some 1) : authLine cfg l = true := by
  unfold authLine
  rw [hs]
  exact decide_eq_true hr

/-- When every thread has stopped, the input is used up unless the flag was set
or a line was refused. -/
theorem allStopped_cases {cfg : Config} {inp : List Char} {n : Nat} {s : State}
    (h : Traced cfg inp n s) (hn : 1 ≤ n) (hs : allStopped s) :
    s.quit ≠ 0 ∨ s.stdin = [] ∨ ∃ l ∈ s.reads.map Prod.snd, splitLine l = none := by
  have hlen := h.size
  cases hp : s.pcs with
  | nil => rw [hp] at hlen; simp at hlen; omega
  | cons pc rest =>
    have hm : pc ∈ s.pcs := by rw [hp]; exact List.mem_cons_self _ _
    exact h.stop pc hm (hs pc hm)

theorem no_refused_read {cfg : Config} {inp : List Char} {n : Nat} {s : State}
    (h : Traced cfg inp n s) (hwf : ∀ l ∈ lines inp, triedLine cfg l = true) :
    ¬ ∃ l ∈ s.reads.map Prod.snd, splitLine l = none := by
  rintro ⟨l, hl, hs⟩
  have := hwf l (mem_reads_lines h hl)
  simp [triedLine, hs] at this

/-- A run that ends with every thread stopped, on an input of accepted lines
with exactly one winning line, has executed `quit = 1` once. -/
theorem complete_run_writes_once {cfg : Config} {inp : List Char} {n : Nat} {sch : List Nat}
    (hn : 1 ≤ n) (hwf : ∀ l ∈ lines inp, triedLine cfg l = true)
    (h1 : (lines inp).countP (authLine cfg) = 1)
    (hs : allStopped (exec cfg sch (init inp n))) :
    (exec cfg sch (init inp n)).quitWrites = 1 := by
  have hc := counts_exec cfg inp n sch
  have ht := traced_exec cfg inp n sch
  have ha := hc.auth
  rw [allStopped_sums hs (Pc.authHeld cfg) rfl, h1] at ha
  rcases allStopped_cases ht hn hs with hq | hin | hbad
  · rcases hc.flag with hf | hf
    · exact absurd hf.1 hq
    · omega
  · simp only [authLeft, hin, lines_nil, List.countP_nil] at ha
    omega
  · exact absurd hbad (no_refused_read ht hwf)

theorem wsum_le_length (f : Pc → Nat) (hf : ∀ pc, f pc ≤ 1) (l : List Pc) :
    wsum f l ≤ l.length := by
  induction l with
  | nil => simp [wsum]
  | cons a l ih =>
    have := hf a
    simp only [wsum, List.map_cons, List.sum_cons, List.length_cons] at ih ⊢
    omega

theorem wsum_halted_of_allStopped {s : State} (h : allStopped s) :
    wsum Pc.halted s.pcs = s.pcs.length := by
  unfold allStopped at h
  generalize s.pcs = l at h
  induction l with
  | nil => simp [wsum]
  | cons a l ih =>
    have ha := h a (List.mem_cons_self _ _)
    have := ih (fun pc hpc => h pc (List.mem_cons_of_mem _ hpc))
    subst ha
    simp only [wsum, List.map_cons, List.sum_cons, List.length_cons, Pc.halted] at this ⊢
    omega

theorem halted_le_one (pc : Pc) : Pc.halted pc ≤ 1 := by
  cases pc <;> simp [Pc.halted]

/-- A worker that has not stopped leaves room: fewer workers have stopped than there are. -/
theorem halted_lt_length {l : List Pc} {i : Nat} {pc : Pc} (h : l[i]? = some pc)
    (hpc : Pc.halted pc = 0) : wsum Pc.halted l + 1 ≤ l.length := by
  have e := wsum_set Pc.halted l i pc Pc.stopped h
  have b := wsum_le_length Pc.halted halted_le_one (l.set i Pc.stopped)
  rw [List.length_set] at b
  have hs : Pc.halted Pc.stopped = 1 := rfl
  rw [hpc, hs] at e
  omega

theorem refusals_init (inp : List Char) (n : Nat) : Refusals (init inp n) := by
  constructor
  · simp [refusedRead, init]
  · right; right
    simp [refusedRead, init, wsum_replicate, Pc.halted]
  · intro h
    simpa [init] using h

theorem refusals_step (cfg : Config) (s s1 : State) (i : Nat) (h : Refusals s)
    (hst : Step cfg i s s1) : Refusals s1 := by
  obtain ⟨h1, h2, h3⟩ := h
  cases hst with
  | loopGo hx hpc hq =>
    have e := wsum_set Pc.halted s.pcs i _ Pc.callGetpassword hpc
    simp only [Pc.halted] at e
    refine ⟨?_, ?_, ?_⟩
    · simp only [refusedRead] at h1 ⊢; omega
    · rcases h2 with h2 | h2 | h2
      · exact Or.inl h2
      · exact Or.inr (Or.inl h2)
      · right; right; simp only [refusedRead] at h2 ⊢; omega
    · simpa [List.length_set] using h3
  | loopStop hx hpc hq =>
    have e := wsum_set Pc.halted s.pcs i _ Pc.stopped hpc
    simp only [Pc.halted] at e
    refine ⟨?_, Or.inl hq, ?_⟩
    · simp only [refusedRead] at h1 ⊢; omega
    · simpa [List.length_set] using h3
  | readEof hx hpc hin =>
    have e := wsum_set Pc.halted s.pcs i _ Pc.stopped hpc
    simp only [Pc.halted] at e
    refine ⟨?_, Or.inr (Or.inl hin), ?_⟩
    · simp only [refusedRead] at h1 ⊢; omega
    · simpa [List.length_set] using h3
  | readBad hx hpc l rest hg hs =>
    have e := wsum_set Pc.halted s.pcs i _ Pc.stopped hpc
    have room := halted_lt_length hpc rfl
    simp only [Pc.halted] at e
    have hl : refusedLine l = true := by simp [refusedLine, hs]
    have hr : (List.map Prod.snd (s.reads ++ [(i, l)])).countP refusedLine
        = refusedRead s + 1 := by
      simp [refusedRead, List.countP_append, hl]
    refine ⟨?_, ?_, ?_⟩
    · simp only [refusedRead] at h1 hr ⊢; omega
    · rcases h2 with h2 | h2 | h2
      · exact Or.inl h2
      · rw [h2] at hg; simp [getline] at hg
      · right; right; simp only [refusedRead] at h2 hr ⊢; omega
    · intro _
      simp only [List.map_append, List.map_cons, List.map_nil, List.dropLast_concat,
        List.length_set]
      simp only [refusedRead] at h1
      omega
  | readCred hx hpc l rest c hg hs =>
    have e := wsum_set Pc.halted s.pcs i _ (Pc.callTry c) hpc
    have room := halted_lt_length hpc rfl
    simp only [Pc.halted] at e
    have hl : refusedLine l = false := by simp [refusedLine, hs]
    have hr : (List.map Prod.snd (s.reads ++ [(i, l)])).countP refusedLine
        = refusedRead s := by
      simp [refusedRead, List.countP_append, hl]
    refine ⟨?_, ?_, ?_⟩
    · simp only [refusedRead] at h1 hr ⊢; omega
    · rcases h2 with h2 | h2 | h2
      · exact Or.inl h2
      · rw [h2] at hg; simp [getline] at hg
      · right; right; simp only [refusedRead] at h2 hr ⊢; omega
    · intro _
      simp only [List.map_append, List.map_cons, List.map_nil, List.dropLast_concat,
        List.length_set]
      simp only [refusedRead] at h1
      omega
  | tryExit hx c hpc hr =>
    have e := wsum_set Pc.halted s.pcs i _ Pc.inExit hpc
    simp only [Pc.halted] at e
    refine ⟨?_, ?_, ?_⟩
    · simp only [refusedRead] at h1 ⊢; omega
    · rcases h2 with h2 | h2 | h2
      · exact Or.inl h2
      · exact Or.inr (Or.inl h2)
      · right; right; simp only [refusedRead] at h2 ⊢; omega
    · simpa [List.length_set] using h3
  | tryFail hx c hpc hr =>
    have e := wsum_set Pc.halted s.pcs i _ Pc.loopHead hpc
    simp only [Pc.halted] at e
    refine ⟨?_, ?_, ?_⟩
    · simp only [refusedRead] at h1 ⊢; omega
    · rcases h2 with h2 | h2 | h2
      · exact Or.inl h2
      · exact Or.inr (Or.inl h2)
      · right; right; simp only [refusedRead] at h2 ⊢; omega
    · simpa [List.length_set] using h3
  | trySucc hx c hpc hr =>
    have e := wsum_set Pc.halted s.pcs i _ (Pc.report c) hpc
    simp only [Pc.halted] at e
    refine ⟨?_, ?_, ?_⟩
    · simp only [refusedRead] at h1 ⊢; omega
    · rcases h2 with h2 | h2 | h2
      · exact Or.inl h2
      · exact Or.inr (Or.inl h2)
      · right; right; simp only [refusedRead] at h2 ⊢; omega
    · simpa [List.length_set] using h3
  | report hx c hpc =>
    have e := wsum_set Pc.halted s.pcs i _ (Pc.setQuit c) hpc
    simp only [Pc.halted] at e
    refine ⟨?_, ?_, ?_⟩
    · simp only [refusedRead] at h1 ⊢; omega
    · rcases h2 with h2 | h2 | h2
      · exact Or.inl h2
      · exact Or.inr (Or.inl h2)
      · right; right; simp only [refusedRead] at h2 ⊢; omega
    · simpa [List.length_set] using h3
  | setQuit hx c hpc =>
    have e := wsum_set Pc.halted s.pcs i _ Pc.stopped hpc
    simp only [Pc.halted] at e
    refine ⟨?_, Or.inl (by simp), ?_⟩
    · simp only [refusedRead] at h1 ⊢; omega
    · simpa [List.length_set] using h3

theorem refusals_exec (cfg : Config) (inp : List Char) (n : Nat) (sch : List Nat) :
    Refusals (exec cfg sch (init inp n)) :=
  exec_induction cfg _ (refusals_step cfg) sch _ (refusals_init inp n)

theorem takeThroughNth_nil {α : Type} (p : α → Bool) (n : Nat) :
    takeThroughNth p n ([] : List α) = [] := by
  cases n <;> rfl

/-- A list with fewer than `n` hits is taken whole. -/
theorem takeThroughNth_all {α : Type} (p : α → Bool) (l : List α) :
    ∀ n, l.countP p < n → takeThroughNth p n l = l := by
  induction l with
  | nil => intro n _; exact takeThroughNth_nil p n
  | cons x xs ih =>
    intro n h
    cases n with
    | zero => omega
    | succ m =>
      simp only [takeThroughNth]
      by_cases hx : p x = true
      · simp only [List.countP_cons, hx, if_true] at h ⊢
        rw [ih m (by omega)]
      · simp only [List.countP_cons, hx, Bool.false_eq_true, if_false] at h ⊢
        rw [ih (m + 1) (by omega)]

/-- The part read is the part taken, when fewer than `n` hits came before its last
element and either nothing is left or it holds `n` hits. -/
theorem takeThroughNth_read {α : Type} (p : α → Bool) (r rest : List α) :
    ∀ n, r.dropLast.countP p < n → (rest = [] ∨ r.countP p = n) →
      takeThroughNth p n (r ++ rest) = r := by
  induction r with
  | nil =>
    intro n h hc
    rcases hc with rfl | hc
    · exact takeThroughNth_nil p n
    · simp only [List.countP_nil, List.dropLast_nil] at hc h
      omega
  | cons x xs ih =>
    intro n h hc
    cases n with
    | zero => omega
    | succ m =>
      show x :: takeThroughNth p (if p x = true then m else m + 1) (xs ++ rest) = x :: xs
      congr 1
      cases xs with
      | nil =>
        rw [List.nil_append]
        rcases hc with rfl | hc
        · exact takeThroughNth_nil p _
        · have h1 : List.countP p [x] = if p x = true then 1 else 0 := by
            rw [List.countP_cons, List.countP_nil, Nat.zero_add]
          by_cases hx : p x = true
          · rw [if_pos hx] at h1 ⊢
            have : m = 0 := by omega
            subst this
            cases rest <;> rfl
          · rw [if_neg hx] at h1
            omega
      | cons y ys =>
        have hd : List.countP p (x :: y :: ys).dropLast
            = List.countP p (y :: ys).dropLast + if p x = true then 1 else 0 := by
          rw [show (x :: y :: ys).dropLast = x :: (y :: ys).dropLast from rfl,
            List.countP_cons]
        have hcc : List.countP p (x :: y :: ys)
            = List.countP p (y :: ys) + if p x = true then 1 else 0 := List.countP_cons _ _ _
        by_cases hx : p x = true
        · rw [if_pos hx] at hd hcc ⊢
          refine ih m (by omega) ?_
          rcases hc with hc | hc
          · exact Or.inl hc
          · right; omega
        · rw [if_neg hx] at hd hcc ⊢
          refine ih (m + 1) (by omega) ?_
          rcases hc with hc | hc
          · exact Or.inl hc
          · right; omega

/-- What was read lies in the part that can be taken. -/
theorem mem_takeThroughNth_read {α : Type} (p : α → Bool) (r rest : List α) :
    ∀ n, r.dropLast.countP p < n → ∀ a ∈ r, a ∈ takeThroughNth p n (r ++ rest) := by
  induction r with
  | nil => intro n _ a ha; simp at ha
  | cons x xs ih =>
    intro n h a ha
    cases n with
    | zero => omega
    | succ m =>
      show a ∈ x :: takeThroughNth p (if p x = true then m else m + 1) (xs ++ rest)
      rw [List.mem_cons] at ha ⊢
      rcases ha with rfl | ha
      · exact Or.inl rfl
      · right
        cases xs with
        | nil => simp at ha
        | cons y ys =>
          have hd : List.countP p (x :: y :: ys).dropLast
              = List.countP p (y :: ys).dropLast + if p x = true then 1 else 0 := by
            rw [show (x :: y :: ys).dropLast = x :: (y :: ys).dropLast from rfl,
              List.countP_cons]
          by_cases hx : p x = true
          · rw [if_pos hx] at hd ⊢
            exact ih m (by omega) a ha
          · rw [if_neg hx] at hd ⊢
            exact ih (m + 1) (by omega) a ha

theorem lines_eq_nil {inp : List Char} (h : lines inp = []) : inp = [] := by
  cases hg : getline inp with
  | none => exact getline_eq_none.mp hg
  | some lr =>
    obtain ⟨l, rest⟩ := lr
    rw [lines_of_getline hg] at h
    simp at h

/-- The lines read lie among the lines the workers can reach. -/
theorem reads_reachable (cfg : Config) (inp : List Char) (T : Nat) (hT : 1 ≤ T)
    (sch : List Nat) :
    ∀ l ∈ (exec cfg sch (init inp T)).reads.map Prod.snd,
      l ∈ takeThroughNth refusedLine T (lines inp) := by
  have ht := traced_exec cfg inp T sch
  have hr := refusals_exec cfg inp T sch
  have hlast := hr.last (by rw [ht.size]; exact hT)
  rw [ht.size] at hlast
  rw [ht.consumed]
  exact mem_takeThroughNth_read refusedLine _ _ T hlast

/-- When `try` returns 0 for every credential the workers can reach, the process
never exits and the flag is never set. -/
theorem fails_quiet (cfg : Config) (inp : List Char) (T : Nat) (hT : 1 ≤ T)
    (hrej : ∀ l ∈ takeThroughNth refusedLine T (lines inp), failsLine cfg l = true)
    (sch : List Nat) :
    (exec cfg sch (init inp T)).exited = false ∧ (exec cfg sch (init inp T)).quit = 0 := by
  have ht := traced_exec cfg inp T sch
  have hc := counts_exec cfg inp T sch
  have hreach := reads_reachable cfg inp T hT sch
  have hzero : ∀ t ∈ (exec cfg sch (init inp T)).tries, t.ret = some 0 := by
    intro t htm
    obtain ⟨⟨l, hl, hs⟩, hr⟩ := ht.tried t htm
    have := hrej l (hreach l hl)
    simp only [failsLine, hs, decide_eq_true_eq] at this
    rw [hr, this]
  constructor
  · by_contra hx
    obtain ⟨t, htm, hn⟩ := ht.exit (by simpa using hx)
    rw [hzero t htm] at hn
    simp at hn
  · rcases hc.flag with hf | hf
    · exact hf.1
    · exfalso
      have hone := hc.tryOnes
      have hpos : 0 < (exec cfg sch (init inp T)).tries.countP
          (fun t => decide (t.ret = some 1)) := by omega
      obtain ⟨t, htm, ht1⟩ := List.countP_pos_iff.mp hpos
      rw [hzero t htm] at ht1
      simp at ht1

/-- C1 (amended). Exhaustion termination: for every input stream of N lines and
every thread count T >= 1, call reachable the lines up to and including the
T-th line that `getpassword` refuses (all N lines when it refuses fewer than
T). If `try` returns 0 for the credential of every reachable line that is
accepted (it neither authenticates nor ends the process), then in every
interleaving the workers take at most 3N + 2T steps in all, a worker that has
not stopped is never blocked, every run can be carried on until all T workers
are stopped, and whenever all are stopped the lines read, each recorded once
with the one worker (below T) that read it, are exactly the reachable lines in
order; when these are all N lines the input is empty, and they are all N
lines when fewer than T lines are refused. -/
theorem exhaustion_termination (cfg : Config) (inp : List Char) (T : Nat) (hT : 1 ≤ T)
    (hrej : ∀ l ∈ takeThroughNth refusedLine T (lines inp), failsLine cfg l = true) :
    (∀ sch, stepsTaken cfg sch (init inp T) ≤ 3 * (lines inp).length + 2 * T) ∧
    (∀ sch (i : Nat) (pc : Pc), (exec cfg sch (init inp T)).pcs[i]? = some pc →
      pc ≠ Pc.stopped → (step cfg i (exec cfg sch (init inp T))).isSome = true) ∧
    (∀ sch, ∃ more, allStopped (exec cfg (sch ++ more) (init inp T))) ∧
    (∀ sch, allStopped (exec cfg sch (init inp T)) →
      (exec cfg sch (init inp T)).reads.map Prod.snd
        = takeThroughNth refusedLine T (lines inp) ∧
      (∀ r ∈ (exec cfg sch (init inp T)).reads, r.1 < T) ∧
      ((exec cfg sch (init inp T)).reads.map Prod.snd = lines inp →
        (exec cfg sch (init inp T)).stdin = []) ∧
      ((lines inp).countP refusedLine < T →
        (exec cfg sch (init inp T)).reads.map Prod.snd = lines inp ∧
        (exec cfg sch (init inp T)).stdin = [])) := by
  have hx : ∀ sch, (exec cfg sch (init inp T)).exited = false :=
    fun sch => (fails_quiet cfg inp T hT hrej sch).1
  refine ⟨?_, ?_, ?_, ?_⟩
  · intro sch
    have h1 := stepsTaken_measure cfg sch (init inp T)
    rw [measure_init] at h1
    have h2 : 1 ≤ (exec cfg sch (init inp T)).measure := by
      simp [State.measure, hx sch]
    omega
  · intro sch i pc hpc hne
    refine step_isSome cfg _ i pc (hx sch) hpc hne ?_
    intro he
    have := noneInExit_exec cfg inp T sch pc (List.getElem?_mem hpc) he
    rw [hx sch] at this
    exact absurd this (by simp)
  · intro sch
    obtain ⟨more, hf⟩ := exec_finishes cfg inp T sch
    refine ⟨more, ?_⟩
    rcases hf with hf | hf
    · rw [hx (sch ++ more)] at hf
      exact absurd hf (by simp)
    · exact hf
  · intro sch hs
    have ht := traced_exec cfg inp T sch
    have hr := refusals_exec cfg inp T sch
    have hq := (fails_quiet cfg inp T hT hrej sch).2
    have hlast := hr.last (by rw [ht.size]; exact hT)
    have hall := wsum_halted_of_allStopped hs
    rw [ht.size] at hlast hall
    have hreads : (exec cfg sch (init inp T)).reads.map Prod.snd
        = takeThroughNth refusedLine T (lines inp) := by
      rw [ht.consumed]
      symm
      apply takeThroughNth_read refusedLine _ _ T hlast
      rcases hr.eq with h | h | h
      · exact absurd hq h
      · left; rw [h, lines_nil]
      · right
        simp only [refusedRead] at h
        omega
    have hall_read : (exec cfg sch (init inp T)).reads.map Prod.snd = lines inp →
        (exec cfg sch (init inp T)).stdin = [] := by
      intro hwhole
      have hcons := ht.consumed
      rw [hwhole] at hcons
      have : lines (exec cfg sch (init inp T)).stdin = [] := by
        have := congrArg List.length hcons
        simp only [List.length_append] at this
        exact List.length_eq_zero.mp (by omega)
      exact lines_eq_nil this
    refine ⟨hreads, ?_, hall_read, ?_⟩
    · intro r hr0
      have := reads_owner cfg inp T sch r hr0
      rw [ht.size] at this
      exact this
    · intro hfew
      rw [takeThroughNth_all refusedLine _ T hfew] at hreads
      exact ⟨hreads, hall_read hreads⟩

/-- C1, witness: two workers, a refused line and a rejected credential; fewer
lines are refused than there are workers, so both lines are read. -/
theorem exhaustion_termination_witness :
    ((1 ≤ 2 ∧ ∀ l ∈ takeThroughNth refusedLine 2 (lines "bad\nbob:pw2\n".toList),
      failsLine (mockCfg ⟨"root".toList, "correct".toList⟩) l = true) ∧
      (lines "bad\nbob:pw2\n".toList).countP refusedLine < 2) ∧
    ((∀ sch, stepsTaken (mockCfg ⟨"root".toList, "correct".toList⟩) sch
        (init "bad\nbob:pw2\n".toList 2)
        ≤ 3 * (lines "bad\nbob:pw2\n".toList).length + 2 * 2) ∧
    (∀ sch (i : Nat) (pc : Pc),
      (exec (mockCfg ⟨"root".toList, "correct".toList⟩) sch
        (init "bad\nbob:pw2\n".toList 2)).pcs[i]? = some pc →
      pc ≠ Pc.stopped →
      (step (mockCfg ⟨"root".toList, "correct".toList⟩) i
        (exec (mockCfg ⟨"root".toList, "correct".toList⟩) sch
          (init "bad\nbob:pw2\n".toList 2))).isSome = true) ∧
    (∀ sch, ∃ more, allStopped (exec (mockCfg ⟨"root".toList, "correct".toList⟩) (sch ++ more)
        (init "bad\nbob:pw2\n".toList 2))) ∧
    (∀ sch, allStopped (exec (mockCfg ⟨"root".toList, "correct".toList⟩) sch
        (init "bad\nbob:pw2\n".toList 2)) →
      (exec (mockCfg ⟨"root".toList, "correct".toList⟩) sch
        (init "bad\nbob:pw2\n".toList 2)).reads.map Prod.snd
          = takeThroughNth refusedLine 2 (lines "bad\nbob:pw2\n".toList) ∧
      (∀ r ∈ (exec (mockCfg ⟨"root".toList, "correct".toList⟩) sch
        (init "bad\nbob:pw2\n".toList 2)).reads, r.1 < 2) ∧
      ((exec (mockCfg ⟨"root".toList, "correct".toList⟩) sch
          (init "bad\nbob:pw2\n".toList 2)).reads.map Prod.snd
            = lines "bad\nbob:pw2\n".toList →
        (exec (mockCfg ⟨"root".toList, "correct".toList⟩) sch
          (init "bad\nbob:pw2\n".toList 2)).stdin = []) ∧
      ((lines "bad\nbob:pw2\n".toList).countP refusedLine < 2 →
        (exec (mockCfg ⟨"root".toList, "correct".toList⟩) sch
          (init "bad\nbob:pw2\n".toList 2)).reads.map Prod.snd
            = lines "bad\nbob:pw2\n".toList ∧
        (exec (mockCfg ⟨"root".toList, "correct".toList⟩) sch
          (init "bad\nbob:pw2\n".toList 2)).stdin = []))) :=
  ⟨by decide, exhaustion_termination (mockCfg ⟨"root".toList, "correct".toList⟩)
    "bad\nbob:pw2\n".toList 2 (by decide) (by decide)⟩

/-- C1, as stated, fails. First: no credential authenticates, one worker, the
first of two lines has no colon; the worker stops with one line read. Second:
no credential authenticates, one worker, the first line has an empty user name
for which `ssh_options_set` fails; the process exits and the worker never
reaches `free:`. -/
theorem exhaustion_termination_counterexample :
    ((∀ l ∈ lines "malformedline\nbob:pw2\n".toList,
        authLine (mockCfg ⟨"root".toList, "correct".toList⟩) l = false) ∧
      (lines "malformedline\nbob:pw2\n".toList).length = 2 ∧
      allStopped (exec (mockCfg ⟨"root".toList, "correct".toList⟩) [0, 0]
        (init "malformedline\nbob:pw2\n".toList 1)) ∧
      (exec (mockCfg ⟨"root".toList, "correct".toList⟩) [0, 0]
        (init "malformedline\nbob:pw2\n".toList 1)).reads
          = [(0, "malformedline\n".toList)]) ∧
    ((∀ l ∈ lines ":pw\nbob:pw2\n".toList, authLine strictCfg l = false) ∧
      ∀ more, ¬ allStopped (exec strictCfg ([0, 0, 0] ++ more) (init ":pw\nbob:pw2\n".toList 1)) ∧
        (exec strictCfg ([0, 0, 0] ++ more) (init ":pw\nbob:pw2\n".toList 1)).reads
          = [(0, ":pw\n".toList)]) := by
  refine ⟨by decide, by decide, ?_⟩
  intro more
  rw [exec_append, exec_of_exited _ _ _ (by decide)]
  decide

/-- C2. At-most-one success: for every input stream with at most one line whose
credential makes `try` return 1, every thread count T >= 1 and every
interleaving, the success report of `run` is printed at most once and
`quit = 1` is executed at most once. In the scenario (stream
"root:wrong\nroot:correct\n", a server accepting (root, correct) only, two
workers) at most 2 lines are read, no success report names another credential,
every run can be carried on until both workers have stopped, and every run
that ends with both workers stopped printed the report for (root, correct)
exactly once. -/
theorem at_most_one_success :
    (∀ (cfg : Config) (inp : List Char) (T : Nat), 1 ≤ T →
      (lines inp).countP (authLine cfg) ≤ 1 → ∀ sch,
      (exec cfg sch (init inp T)).out.countP Out.isRunSuccess ≤ 1 ∧
      (exec cfg sch (init inp T)).quitWrites ≤ 1) ∧
    (∀ sch,
      (exec (mockCfg ⟨"root".toList, "correct".toList⟩) sch
        (init "root:wrong\nroot:correct\n".toList 2)).reads.length ≤ 2 ∧
      (exec (mockCfg ⟨"root".toList, "correct".toList⟩) sch
        (init "root:wrong\nroot:correct\n".toList 2)).out.countP Out.isRunSuccess ≤ 1 ∧
      (∀ o ∈ (exec (mockCfg ⟨"root".toList, "correct".toList⟩) sch
        (init "root:wrong\nroot:correct\n".toList 2)).out, o.isRunSuccess = true →
        o = Out.runSuccess "root".toList "correct".toList) ∧
      (∃ more, allStopped (exec (mockCfg ⟨"root".toList, "correct".toList⟩) (sch ++ more)
        (init "root:wrong\nroot:correct\n".toList 2))) ∧
      (allStopped (exec (mockCfg ⟨"root".toList, "correct".toList⟩) sch
        (init "root:wrong\nroot:correct\n".toList 2)) →
        (exec (mockCfg ⟨"root".toList, "correct".toList⟩) sch
          (init "root:wrong\nroot:correct\n".toList 2)).out.countP Out.isRunSuccess = 1)) := by
  have gen : ∀ (cfg : Config) (inp : List Char) (T : Nat),
      (lines inp).countP (authLine cfg) ≤ 1 → ∀ sch,
      (exec cfg sch (init inp T)).out.countP Out.isRunSuccess ≤ 1 ∧
      (exec cfg sch (init inp T)).quitWrites ≤ 1 := by
    intro cfg inp T h1 sch
    have hc := counts_exec cfg inp T sch
    have ha := hc.auth
    have hr := hc.runLines
    have hle : wsum Pc.reported (exec cfg sch (init inp T)).pcs
        ≤ wsum (Pc.authHeld cfg) (exec cfg sch (init inp T)).pcs := by
      unfold wsum
      apply List.sum_le_sum
      intro pc _
      cases pc <;> simp [Pc.reported, Pc.authHeld]
    omega
  refine ⟨fun cfg inp T _ h1 sch => gen cfg inp T h1 sch, ?_⟩
  intro sch
  have h1 : (lines "root:wrong\nroot:correct\n".toList).countP
      (authLine (mockCfg ⟨"root".toList, "correct".toList⟩)) = 1 := by decide
  have ht := traced_exec (mockCfg ⟨"root".toList, "correct".toList⟩)
    "root:wrong\nroot:correct\n".toList 2 sch
  have hc := counts_exec (mockCfg ⟨"root".toList, "correct".toList⟩)
    "root:wrong\nroot:correct\n".toList 2 sch
  have hwf : ∀ l ∈ lines "root:wrong\nroot:correct\n".toList,
      triedLine (mockCfg ⟨"root".toList, "correct".toList⟩) l = true := by decide
  refine ⟨?_, (gen _ _ 2 (by omega) sch).1, ?_, ?_, ?_⟩
  · have h2 := congrArg List.length ht.consumed
    have h3 : (lines "root:wrong\nroot:correct\n".toList).length = 2 := by decide
    rw [h3] at h2
    simp only [List.length_append, List.length_map] at h2
    omega
  · intro o ho hs
    have hs2 : o.isSuccess = true := by simp [Out.isSuccess, hs]
    obtain ⟨c, hoc, hret, l, hl, hsl⟩ := ht.printed o ho hs2
    have hmem := mem_reads_lines ht hl
    have hall : ∀ l ∈ lines "root:wrong\nroot:correct\n".toList,
        authLine (mockCfg ⟨"root".toList, "correct".toList⟩) l = true →
        splitLine l = some ⟨"root".toList, "correct".toList⟩ := by decide
    have hauth : authLine (mockCfg ⟨"root".toList, "correct".toList⟩) l = true :=
      authLine_of_split hsl hret
    have := hall l hmem hauth
    rw [hsl] at this
    simp only [Option.some.injEq] at this
    subst this
    rcases hoc with rfl | rfl
    · simp [Out.isRunSuccess] at hs
    · rfl
  · obtain ⟨more, hf⟩ := exec_finishes (mockCfg ⟨"root".toList, "correct".toList⟩)
      "root:wrong\nroot:correct\n".toList 2 sch
    refine ⟨more, ?_⟩
    rcases hf with hx | hs
    · rw [never_exits (traced_exec _ _ 2 (sch ++ more)) hwf] at hx
      exact absurd hx (by simp)
    · exact hs
  · intro hs
    have hw := complete_run_writes_once (by omega) hwf h1 hs
    have hr := hc.runLines
    rw [allStopped_sums hs Pc.reported rfl, hw] at hr
    exact hr

/-- C2, witness: the scenario's stream has one winning line; under the schedule
that lets the two workers take turns the report is printed and the flag is set. -/
theorem at_most_one_success_witness :
    (1 ≤ 2 ∧ (lines "root:wrong\nroot:correct\n".toList).countP
      (authLine (mockCfg ⟨"root".toList, "correct".toList⟩)) ≤ 1) ∧
    ((exec (mockCfg ⟨"root".toList, "correct".toList⟩) [0, 1, 0, 1, 0, 1, 0, 1, 0, 1]
        (init "root:wrong\nroot:correct\n".toList 2)).out.countP Out.isRunSuccess ≤ 1 ∧
      (exec (mockCfg ⟨"root".toList, "correct".toList⟩) [0, 1, 0, 1, 0, 1, 0, 1, 0, 1]
        (init "root:wrong\nroot:correct\n".toList 2)).quitWrites ≤ 1) ∧
    (exec (mockCfg ⟨"root".toList, "correct".toList⟩) [0, 1, 0, 1, 0, 1, 0, 1, 0, 1]
        (init "root:wrong\nroot:correct\n".toList 2)).out
      = [Out.trySuccess "root".toList "correct".toList,
         Out.runSuccess "root".toList "correct".toList] :=
  ⟨by decide,
   at_most_one_success.1 (mockCfg ⟨"root".toList, "correct".toList⟩)
     "root:wrong\nroot:correct\n".toList 2 (by decide) (by decide) [0, 1, 0, 1, 0, 1, 0, 1, 0, 1],
   by decide⟩

/-- C8 (amended). Success lines: in every run that ends with all workers
stopped and in which some call of `try` returned 1, the stream holding a single
line whose credential makes `try` return 1, the output holds exactly two success
lines, one written by `try` (`Success: u:p`) and one written by `run`
(`Success! Username: u Password: p`), and every success line carries the
credential of the call that returned 1, which is the credential of a line of
the stream. When no line of the stream holds such a credential the output
never holds a success line. -/
theorem success_lines (cfg : Config) (inp : List Char) (T : Nat) (sch : List Nat) :
    ((lines inp).countP (authLine cfg) = 1 →
      allStopped (exec cfg sch (init inp T)) →
      ∀ t ∈ (exec cfg sch (init inp T)).tries, t.ret = some 1 →
        (exec cfg sch (init inp T)).out.countP Out.isTrySuccess = 1 ∧
        (exec cfg sch (init inp T)).out.countP Out.isRunSuccess = 1 ∧
        (exec cfg sch (init inp T)).out.countP Out.isSuccess = 2 ∧
        (∃ l ∈ lines inp, splitLine l = some t.cred) ∧
        ∀ o ∈ (exec cfg sch (init inp T)).out, o.isSuccess = true →
          o = Out.trySuccess t.cred.username t.cred.password ∨
          o = Out.runSuccess t.cred.username t.cred.password) ∧
    ((lines inp).countP (authLine cfg) = 0 →
      (exec cfg sch (init inp T)).out.countP Out.isSuccess = 0) := by
  have hc := counts_exec cfg inp T sch
  have ht := traced_exec cfg inp T sch
  have ha := hc.auth
  have hr := hc.runLines
  have hy := hc.tryLines
  have ho := hc.tryOnes
  constructor
  · intro h1 hs t htm hret
    rw [allStopped_sums hs Pc.reported rfl] at hr
    rw [allStopped_sums hs Pc.tryDone rfl] at hy ho
    rw [allStopped_sums hs (Pc.authHeld cfg) rfl] at ha
    have hpos : 0 < (exec cfg sch (init inp T)).tries.countP (fun t => decide (t.ret = some 1)) :=
      List.countP_pos_iff.mpr ⟨t, htm, by simp [hret]⟩
    have hw : (exec cfg sch (init inp T)).quitWrites = 1 := by omega
    obtain ⟨⟨l, hl, hsl⟩, hreq⟩ := ht.tried t htm
    have hlm := mem_reads_lines ht hl
    have hla : authLine cfg l = true := authLine_of_split hsl (hreq ▸ hret)
    refine ⟨by omega, by omega, by rw [countP_isSuccess]; omega, ⟨l, hlm, hsl⟩, ?_⟩
    intro o hom hos
    obtain ⟨c, hoc, hcr, l2, hl2, hsl2⟩ := ht.printed o hom hos
    have hl2m := mem_reads_lines ht hl2
    have hl2a : authLine cfg l2 = true := authLine_of_split hsl2 hcr
    have := countP_le_one_unique (authLine cfg) (lines inp) (by omega) l l2 hlm hl2m hla hl2a
    subst this
    rw [hsl] at hsl2
    simp only [Option.some.injEq] at hsl2
    subst hsl2
    exact hoc
  · intro h0
    have hle : wsum Pc.tryDone (exec cfg sch (init inp T)).pcs
        ≤ wsum (Pc.authHeld cfg) (exec cfg sch (init inp T)).pcs := by
      unfold wsum
      apply List.sum_le_sum
      intro pc _
      cases pc <;> simp [Pc.tryDone, Pc.authHeld]
    have hle2 : wsum Pc.reported (exec cfg sch (init inp T)).pcs
        ≤ wsum Pc.tryDone (exec cfg sch (init inp T)).pcs := by
      unfold wsum
      apply List.sum_le_sum
      intro pc _
      cases pc <;> simp [Pc.tryDone, Pc.reported]
    rw [countP_isSuccess]
    omega

/-- C8, witness: the winning credential alone in the stream, one worker, run to
its end; and a stream without a winning credential. -/
theorem success_lines_witness :
    (((lines "root:correct\n".toList).countP
        (authLine (mockCfg ⟨"root".toList, "correct".toList⟩)) = 1 ∧
      allStopped (exec (mockCfg ⟨"root".toList, "correct".toList⟩) [0, 0, 0, 0, 0]
        (init "root:correct\n".toList 1)) ∧
      (⟨0, ⟨"root".toList, "correct".toList⟩, some 1⟩ : Trial) ∈
        (exec (mockCfg ⟨"root".toList, "correct".toList⟩) [0, 0, 0, 0, 0]
          (init "root:correct\n".toList 1)).tries) ∧
    ((exec (mockCfg ⟨"root".toList, "correct".toList⟩) [0, 0, 0, 0, 0]
        (init "root:correct\n".toList 1)).out.countP Out.isTrySuccess = 1 ∧
      (exec (mockCfg ⟨"root".toList, "correct".toList⟩) [0, 0, 0, 0, 0]
        (init "root:correct\n".toList 1)).out.countP Out.isRunSuccess = 1 ∧
      (exec (mockCfg ⟨"root".toList, "correct".toList⟩) [0, 0, 0, 0, 0]
        (init "root:correct\n".toList 1)).out.countP Out.isSuccess = 2 ∧
      (∃ l ∈ lines "root:correct\n".toList,
        splitLine l = some ⟨"root".toList, "correct".toList⟩) ∧
      ∀ o ∈ (exec (mockCfg ⟨"root".toList, "correct".toList⟩) [0, 0, 0, 0, 0]
          (init "root:correct\n".toList 1)).out, o.isSuccess = true →
        o = Out.trySuccess "root".toList "correct".toList ∨
        o = Out.runSuccess "root".toList "correct".toList)) ∧
    ((lines "root:wrong\n".toList).countP
        (authLine (mockCfg ⟨"root".toList, "correct".toList⟩)) = 0 ∧
      (exec (mockCfg ⟨"root".toList, "correct".toList⟩) [0, 0, 0, 0, 0, 0]
        (init "root:wrong\n".toList 1)).out.countP Out.isSuccess = 0) :=
  ⟨⟨by decide,
   (success_lines (mockCfg ⟨"root".toList, "correct".toList⟩) "root:correct\n".toList 1
     [0, 0, 0, 0, 0]).1 (by decide) (by decide)
     ⟨0, ⟨"root".toList, "correct".toList⟩, some 1⟩ (by decide) rfl⟩,
   ⟨by decide, (success_lines (mockCfg ⟨"root".toList, "correct".toList⟩) "root:wrong\n".toList 1
     [0, 0, 0, 0, 0, 0]).2 (by decide)⟩⟩

/-- C8, as stated, fails: with the winning credential alone in the stream and one
worker, the finished run has printed two success lines, the one of `try` and
the one of `run`. -/
theorem success_lines_counterexample :
    allStopped (exec (mockCfg ⟨"root".toList, "correct".toList⟩) [0, 0, 0, 0, 0]
      (init "root:correct\n".toList 1)) ∧
    (exec (mockCfg ⟨"root".toList, "correct".toList⟩) [0, 0, 0, 0, 0]
      (init "root:correct\n".toList 1)).out
      = [Out.trySuccess "root".toList "correct".toList,
         Out.runSuccess "root".toList "correct".toList] ∧
    (exec (mockCfg ⟨"root".toList, "correct".toList⟩) [0, 0, 0, 0, 0]
      (init "root:correct\n".toList 1)).out.countP Out.isSuccess ≠ 1 := by
  decide

theorem getpassword_of_line (verbose : Int) (stdin l rest : List Char) (c : Credential)
    (hg : getline stdin = some (l, rest)) (hs : splitLine l = some c) :
    (getpassword verbose stdin).ret = 1 ∧ (getpassword verbose stdin).cred = some c ∧
      (getpassword verbose stdin).stdin = rest ∧ (getpassword verbose stdin).line = some l := by
  simp [getpassword, hg, hs, GetpasswordResult.ret]

theorem getpassword_of_refused (verbose : Int) (stdin l rest : List Char)
    (hg : getline stdin = some (l, rest)) (hs : splitLine l = none) :
    (getpassword verbose stdin).ret = 0 ∧ (getpassword verbose stdin).cred = none ∧
      (getpassword verbose stdin).stdin = rest ∧ (getpassword verbose stdin).line = some l := by
  simp [getpassword, hg, hs, GetpasswordResult.ret]

/-- C4. At the failing input "alice:\n", whose password portion is empty,
`getpassword` returns 1 and stores the user name "alice" with an empty
password; at end of input it returns 0. Only an empty password that ends the
input ("alice:") makes it return 0. -/
theorem getpassword_empty_password (verbose : Int) :
    ((getpassword verbose "alice:\n".toList).ret = 1 ∧
      (getpassword verbose "alice:\n".toList).cred = some ⟨"alice".toList, []⟩) ∧
    ((getpassword verbose []).ret = 0 ∧ (getpassword verbose []).cred = none) ∧
    ((getpassword verbose "alice:".toList).ret = 0 ∧
      (getpassword verbose "alice:".toList).cred = none) := by
  have h1 := getpassword_of_line verbose "alice:\n".toList "alice:\n".toList []
    ⟨"alice".toList, []⟩ (by decide) (by decide)
  have h2 := getpassword_of_refused verbose "alice:".toList "alice:".toList []
    (by decide) (by decide)
  refine ⟨⟨h1.1, h1.2.1⟩, ?_, ⟨h2.1, h2.2.1⟩⟩
  simp [getpassword, getline, GetpasswordResult.ret]

/-- C5 (amended). Split at the first colon only: for every line `u:p` where u
holds no ':', no newline and no NUL byte, and p is non-empty and holds no
newline and no NUL byte (p may hold further ':'), whether the line ends with a
newline or with the input, `getpassword` returns 1 with username = u and
password = p, and leaves the input after the line unread. -/
theorem split_at_first_colon (verbose : Int) (u p rest : List Char)
    (hu1 : ':' ∉ u) (hu2 : '\n' ∉ u) (hu3 : NUL ∉ u)
    (hp0 : p ≠ []) (hp1 : '\n' ∉ p) (hp2 : NUL ∉ p) :
    ((getpassword verbose (u ++ ':' :: (p ++ '\n' :: rest))).ret = 1 ∧
      (getpassword verbose (u ++ ':' :: (p ++ '\n' :: rest))).cred = some ⟨u, p⟩ ∧
      (getpassword verbose (u ++ ':' :: (p ++ '\n' :: rest))).stdin = rest) ∧
    ((getpassword verbose (u ++ ':' :: p)).ret = 1 ∧
      (getpassword verbose (u ++ ':' :: p)).cred = some ⟨u, p⟩ ∧
      (getpassword verbose (u ++ ':' :: p)).stdin = []) := by
  have hl : '\n' ∉ u ++ ':' :: p := by
    simp only [List.mem_append, List.mem_cons, not_or]
    exact ⟨hu2, by decide, hp1⟩
  constructor
  · have hg : getline (u ++ ':' :: (p ++ '\n' :: rest)) = some (u ++ ':' :: (p ++ ['\n']), rest) := by
      have := getline_line (u ++ ':' :: p) rest hl
      simpa using this
    have := getpassword_of_line verbose _ _ _ _ hg (splitLine_newline u p hu1 hu3 hp1 hp2)
    exact ⟨this.1, this.2.1, this.2.2.1⟩
  · have hg : getline (u ++ ':' :: p) = some (u ++ ':' :: p, []) :=
      getline_last _ (by simp) hl
    have := getpassword_of_line verbose _ _ _ _ hg (splitLine_eof u p hu1 hu3 hp0 hp1 hp2)
    exact ⟨this.1, this.2.1, this.2.2.1⟩

/-- C5, witness: the line "alice:a:b", whose password holds a colon. -/
theorem split_at_first_colon_witness :
    (':' ∉ "alice".toList ∧ '\n' ∉ "alice".toList ∧ NUL ∉ "alice".toList ∧
      "a:b".toList ≠ [] ∧ '\n' ∉ "a:b".toList ∧ NUL ∉ "a:b".toList) ∧
    (((getpassword 0 ("alice".toList ++ ':' :: ("a:b".toList ++ '\n' :: "x:y\n".toList))).ret = 1 ∧
      (getpassword 0 ("alice".toList ++ ':' :: ("a:b".toList ++ '\n' :: "x:y\n".toList))).cred
        = some ⟨"alice".toList, "a:b".toList⟩ ∧
      (getpassword 0 ("alice".toList ++ ':' :: ("a:b".toList ++ '\n' :: "x:y\n".toList))).stdin
        = "x:y\n".toList) ∧
    ((getpassword 0 ("alice".toList ++ ':' :: "a:b".toList)).ret = 1 ∧
      (getpassword 0 ("alice".toList ++ ':' :: "a:b".toList)).cred
        = some ⟨"alice".toList, "a:b".toList⟩ ∧
      (getpassword 0 ("alice".toList ++ ':' :: "a:b".toList)).stdin = [])) :=
  ⟨by decide, split_at_first_colon 0 "alice".toList "a:b".toList "x:y\n".toList
    (by decide) (by decide) (by decide) (by decide) (by decide) (by decide)⟩

/-- C5, as stated, fails when the line holds a NUL byte. With u = a NUL b and
p = pw the colon lies behind the end of the C string and `getpassword` returns
0; with u = a and p = p NUL q the password stored is the C string p. -/
theorem split_at_first_colon_counterexample :
    (':' ∉ ['a', NUL, 'b'] ∧ '\n' ∉ ['a', NUL, 'b'] ∧ "pw".toList ≠ [] ∧ '\n' ∉ "pw".toList ∧
      (getpassword 0 (['a', NUL, 'b'] ++ ':' :: ("pw".toList ++ ['\n']))).ret = 0 ∧
      (getpassword 0 (['a', NUL, 'b'] ++ ':' :: ("pw".toList ++ ['\n']))).cred = none) ∧
    (':' ∉ ['a'] ∧ '\n' ∉ ['a'] ∧ ['p', NUL, 'q'] ≠ [] ∧ '\n' ∉ ['p', NUL, 'q'] ∧
      (getpassword 0 (['a'] ++ ':' :: (['p', NUL, 'q'] ++ ['\n']))).cred = some ⟨['a'], ['p']⟩ ∧
      (getpassword 0 (['a'] ++ ':' :: (['p', NUL, 'q'] ++ ['\n']))).cred
        ≠ some ⟨['a'], ['p', NUL, 'q']⟩) := by
  decide

/-- C6 (amended). The newline is stripped from the password: for every input on
which `getpassword` yields a credential, the yielded password holds no '\n'.
A '\r' is not stripped: for every line `u:p` terminated by "\r\n", where u
holds no ':', no newline and no NUL byte and p holds no newline and no NUL
byte, `getpassword` returns 1 and the yielded password is p followed by '\r'. -/
theorem password_has_no_newline :
    (∀ (verbose : Int) (stdin : List Char) (c : Credential),
      (getpassword verbose stdin).cred = some c → '\n' ∉ c.password) ∧
    (∀ (verbose : Int) (u p rest : List Char),
      ':' ∉ u → '\n' ∉ u → NUL ∉ u → '\n' ∉ p → NUL ∉ p →
      (getpassword verbose (u ++ ':' :: (p ++ '\r' :: '\n' :: rest))).ret = 1 ∧
      (getpassword verbose (u ++ ':' :: (p ++ '\r' :: '\n' :: rest))).cred
        = some ⟨u, p ++ ['\r']⟩ ∧
      (getpassword verbose (u ++ ':' :: (p ++ '\r' :: '\n' :: rest))).stdin = rest) := by
  constructor
  · intro verbose stdin c h
    unfold getpassword at h
    split at h
    · rename_i buf rest hg
      split at h
      · simp at h
      · rename_i c0 hs
        simp only [Option.some.injEq] at h
        subst h
        exact splitLine_password_no_newline buf c0 hs
    · simp at h
  · intro verbose u p rest hu1 hu2 hu3 hp1 hp2
    have hq1 : '\n' ∉ p ++ ['\r'] := by
      simp only [List.mem_append, List.mem_singleton, not_or]
      exact ⟨hp1, by decide⟩
    have hq2 : NUL ∉ p ++ ['\r'] := by
      simp only [List.mem_append, List.mem_singleton, not_or]
      exact ⟨hp2, by decide⟩
    have hl : '\n' ∉ u ++ ':' :: (p ++ ['\r']) := by
      intro hm
      rcases List.mem_append.mp hm with hm | hm
      · exact hu2 hm
      · rcases List.mem_cons.mp hm with hm | hm
        · exact absurd hm (by decide)
        · exact hq1 hm
    have hg : getline (u ++ ':' :: (p ++ '\r' :: '\n' :: rest))
        = some (u ++ ':' :: ((p ++ ['\r']) ++ ['\n']), rest) := by
      have := getline_line (u ++ ':' :: (p ++ ['\r'])) rest hl
      simpa using this
    have := getpassword_of_line verbose _ _ _ _ hg
      (splitLine_newline u (p ++ ['\r']) hu1 hu3 hq1 hq2)
    exact ⟨this.1, this.2.1, this.2.2.1⟩

/-- C6, witness: the line "alice:secret", and the line "alice:pw" terminated by "\r\n". -/
theorem password_has_no_newline_witness :
    ((getpassword 0 "alice:secret\nbob:pw2\n".toList).cred
        = some ⟨"alice".toList, "secret".toList⟩ ∧
      '\n' ∉ (⟨"alice".toList, "secret".toList⟩ : Credential).password) ∧
    ((':' ∉ "alice".toList ∧ '\n' ∉ "alice".toList ∧ NUL ∉ "alice".toList ∧
        '\n' ∉ "pw".toList ∧ NUL ∉ "pw".toList) ∧
      (getpassword 0 ("alice".toList ++ ':' :: ("pw".toList ++ '\r' :: '\n' :: []))).ret = 1 ∧
      (getpassword 0 ("alice".toList ++ ':' :: ("pw".toList ++ '\r' :: '\n' :: []))).cred
        = some ⟨"alice".toList, "pw".toList ++ ['\r']⟩ ∧
      (getpassword 0 ("alice".toList ++ ':' :: ("pw".toList ++ '\r' :: '\n' :: []))).stdin
        = []) :=
  ⟨⟨by decide, password_has_no_newline.1 0 "alice:secret\nbob:pw2\n".toList
    ⟨"alice".toList, "secret".toList⟩ (by decide)⟩,
   by decide,
   password_has_no_newline.2 0 "alice".toList "pw".toList []
     (by decide) (by decide) (by decide) (by decide) (by decide)⟩

/-- C6, as stated, fails: on the line "alice:pw\r\n" the password `getpassword`
yields is "pw\r", which holds the line-ending character '\r'. -/
theorem password_has_no_newline_counterexample :
    (getpassword 0 "alice:pw\r\n".toList).cred = some ⟨"alice".toList, "pw\r".toList⟩ ∧
    '\r' ∈ (⟨"alice".toList, "pw\r".toList⟩ : Credential).password := by
  decide

/-- C7. Resource release exactly once: every call of `try` that returns (with 0
after a failed connect, with 1 after an accepted password, with 0 after a
rejected password) has called `ssh_new` once, as its first libssh call, and
`ssh_free` exactly once, as its last libssh call, right after `ssh_disconnect`. -/
theorem try_frees_session_once (lib : Libssh) (verbose : Int) (hostname username password : List Char)
    (port : Int) (h : (try_ lib verbose hostname username password port).ret ≠ none) :
    (try_ lib verbose hostname username password port).calls.count LibCall.ssh_free = 1 ∧
    (try_ lib verbose hostname username password port).calls.count LibCall.ssh_new = 1 ∧
    (try_ lib verbose hostname username password port).calls.head? = some LibCall.ssh_new ∧
    (try_ lib verbose hostname username password port).calls.getLast? = some LibCall.ssh_free ∧
    (try_ lib verbose hostname username password port).calls.dropLast.getLast?
      = some LibCall.ssh_disconnect := by
  unfold try_ at h ⊢
  simp only at h ⊢
  split_ifs at h ⊢ <;> simp_all [List.count_cons, List.count_append, List.getLast?_append,
    List.dropLast_append_of_ne_nil, List.getLast?_cons_cons]

/-! ### One worker -/

/-- C7, witness: an accepted password, a rejected one, and a failed connect. -/
theorem try_frees_session_once_witness :
    (try_ (mockLib ⟨"root".toList, "correct".toList⟩) 0 "testhost".toList "root".toList
      "correct".toList 2222).ret ≠ none ∧
    ((try_ (mockLib ⟨"root".toList, "correct".toList⟩) 0 "testhost".toList "root".toList
        "correct".toList 2222).calls.count LibCall.ssh_free = 1 ∧
      (try_ (mockLib ⟨"root".toList, "correct".toList⟩) 0 "testhost".toList "root".toList
        "correct".toList 2222).calls.count LibCall.ssh_new = 1 ∧
      (try_ (mockLib ⟨"root".toList, "correct".toList⟩) 0 "testhost".toList "root".toList
        "correct".toList 2222).calls.head? = some LibCall.ssh_new ∧
      (try_ (mockLib ⟨"root".toList, "correct".toList⟩) 0 "testhost".toList "root".toList
        "correct".toList 2222).calls.getLast? = some LibCall.ssh_free ∧
      (try_ (mockLib ⟨"root".toList, "correct".toList⟩) 0 "testhost".toList "root".toList
        "correct".toList 2222).calls.dropLast.getLast? = some LibCall.ssh_disconnect) :=
  ⟨by decide, try_frees_session_once (mockLib ⟨"root".toList, "correct".toList⟩) 0
    "testhost".toList "root".toList "correct".toList 2222 (by decide)⟩

theorem single_init (inp : List Char) : Single (init inp 1) Pc.loopHead := by
  constructor <;> simp [init, Pc.pending]

theorem single_index {pc x : Pc} {i : Nat} (h : [pc][i]? = some x) : i = 0 ∧ pc = x := by
  cases i with
  | zero => simpa using h
  | succ i => simp at h

theorem single_step (cfg : Config) (s s1 : State) (i : Nat) (pc : Pc) (h : Single s pc)
    (hst : Step cfg i s s1) : ∃ pc1, Single s1 pc1 := by
  obtain ⟨h1, h2, h3, h4, h5, h6⟩ := h
  cases hst with
  | loopGo hx hpc hq =>
    rw [h1] at hpc
    obtain ⟨rfl, rfl⟩ := single_index hpc
    refine ⟨Pc.callGetpassword, ⟨by simp [h1], ?_, h3, fun _ => h4 trivial, h5,
      fun _ => h6 (by simp)⟩⟩
    simpa [Pc.pending] using h2
  | loopStop hx hpc hq =>
    rw [h1] at hpc
    obtain ⟨rfl, rfl⟩ := single_index hpc
    refine ⟨Pc.stopped, ⟨by simp [h1], ?_, h3, fun hr => absurd hr (by simp [Pc.running]), h5,
      fun hne => absurd rfl hne⟩⟩
    simpa [Pc.pending] using h2
  | readEof hx hpc hin =>
    rw [h1] at hpc
    obtain ⟨rfl, rfl⟩ := single_index hpc
    refine ⟨Pc.stopped, ⟨by simp [h1], ?_, h3, fun hr => absurd hr (by simp [Pc.running]), h5,
      fun hne => absurd rfl hne⟩⟩
    simpa [Pc.pending] using h2
  | readBad hx hpc l rest hg hs =>
    rw [h1] at hpc
    obtain ⟨rfl, rfl⟩ := single_index hpc
    refine ⟨Pc.stopped, ⟨by simp [h1], ?_, h3, fun hr => absurd hr (by simp [Pc.running]), ?_,
      fun hne => absurd rfl hne⟩⟩
    · simpa [Pc.pending, List.filterMap_append, hs] using h2
    · simp only [List.map_append, List.map_cons, List.map_nil, List.dropLast_concat]
      exact h6 (by simp)
  | readCred hx hpc l rest c hg hs =>
    rw [h1] at hpc
    obtain ⟨rfl, rfl⟩ := single_index hpc
    refine ⟨Pc.callTry c, ⟨by simp [h1], ?_, h3, fun _ => h4 trivial, ?_, ?_⟩⟩
    · simp only [Pc.pending, List.append_nil] at h2
      simp [Pc.pending, List.filterMap_append, hs, h2]
    · simp only [List.map_append, List.map_cons, List.map_nil, List.dropLast_concat]
      exact h6 (by simp)
    · intro _ l0 hl0
      simp only [List.map_append, List.map_cons, List.map_nil, List.mem_append,
        List.mem_singleton] at hl0
      rcases hl0 with hl0 | rfl
      · exact h6 (by simp) l0 hl0
      · simp [hs]
  | tryExit hx c hpc hr =>
    rw [h1] at hpc
    obtain ⟨rfl, rfl⟩ := single_index hpc
    refine ⟨Pc.inExit, ⟨by simp [h1], ?_, ?_, fun hr => absurd hr (by simp [Pc.running]), h5,
      fun _ => h6 (by simp)⟩⟩
    · simpa [Pc.pending] using h2
    · simp only [List.dropLast_concat]
      exact h4 trivial
  | tryFail hx c hpc hr =>
    rw [h1] at hpc
    obtain ⟨rfl, rfl⟩ := single_index hpc
    refine ⟨Pc.loopHead, ⟨by simp [h1], ?_, ?_, ?_, h5, fun _ => h6 (by simp)⟩⟩
    · simpa [Pc.pending] using h2
    · simp only [List.dropLast_concat]
      exact h4 trivial
    · intro _ t ht
      simp only [List.mem_append, List.mem_singleton] at ht
      rcases ht with ht | rfl
      · exact h4 trivial t ht
      · rfl
  | trySucc hx c hpc hr =>
    rw [h1] at hpc
    obtain ⟨rfl, rfl⟩ := single_index hpc
    refine ⟨Pc.report c, ⟨by simp [h1], ?_, ?_, fun hr => absurd hr (by simp [Pc.running]), h5,
      fun _ => h6 (by simp)⟩⟩
    · simpa [Pc.pending] using h2
    · simp only [List.dropLast_concat]
      exact h4 trivial
  | report hx c hpc =>
    rw [h1] at hpc
    obtain ⟨rfl, rfl⟩ := single_index hpc
    refine ⟨Pc.setQuit c, ⟨by simp [h1], ?_, h3, fun hr => absurd hr (by simp [Pc.running]), h5,
      fun _ => h6 (by simp)⟩⟩
    simpa [Pc.pending] using h2
  | setQuit hx c hpc =>
    rw [h1] at hpc
    obtain ⟨rfl, rfl⟩ := single_index hpc
    refine ⟨Pc.stopped, ⟨by simp [h1], ?_, h3, fun hr => absurd hr (by simp [Pc.running]), h5,
      fun hne => absurd rfl hne⟩⟩
    simpa [Pc.pending] using h2

/-! ### The stop flag -/

theorem single_exec (cfg : Config) (inp : List Char) (sch : List Nat) :
    ∃ pc, Single (exec cfg sch (init inp 1)) pc :=
  exec_induction cfg (fun s => ∃ pc, Single s pc)
    (fun s s1 i ⟨pc, h⟩ hst => single_step cfg s s1 i pc h hst) sch _
    ⟨Pc.loopHead, single_init inp⟩

theorem triesOf_append_self (s : State) (i : Nat) (t : Trial) (ht : t.worker = i) :
    (s.tries ++ [t]).filter (fun t => decide (t.worker = i)) = triesOf s i ++ [t] := by
  simp [triesOf, List.filter_append, ht]

theorem triesOf_append_other (s : State) (i : Nat) (t : Trial) (ht : t.worker ≠ i) :
    (s.tries ++ [t]).filter (fun t => decide (t.worker = i)) = triesOf s i := by
  simp [triesOf, List.filter_append, ht]

theorem getElem?_set_self {l : List Pc} {j : Nat} {pc x : Pc} (h : l[j]? = some pc) :
    (l.set j x)[j]? = some x := by
  have hj : j < l.length := (List.getElem?_eq_some.mp h).1
  simp [List.getElem?_set, hj]

theorem getElem?_set_other {l : List Pc} {i j : Nat} {x : Pc} (h : j ≠ i) :
    (l.set j x)[i]? = l[i]? := by
  simp [List.getElem?_set, h]

theorem ownSuccess_step (cfg : Config) (s s1 : State) (j : Nat) (h : OwnSuccess s)
    (hst : Step cfg j s s1) : OwnSuccess s1 := by
  intro i c hi
  by_cases hji : j = i
  · subst hji
    cases hst with
    | trySucc hx c0 hpc hr =>
      simp only [getElem?_set_self hpc, Option.some.injEq, Pc.report.injEq, reduceCtorEq,
        or_false] at hi
      subst hi
      simp only [triesOf]
      rw [triesOf_append_self s j _ rfl, List.getLast?_concat]
    | report hx c0 hpc =>
      simp only [getElem?_set_self hpc, Option.some.injEq, Pc.setQuit.injEq, reduceCtorEq,
        false_or] at hi
      subst hi
      exact h j c0 (Or.inl hpc)
    | loopGo hx hpc hq => simp [getElem?_set_self hpc] at hi
    | loopStop hx hpc hq => simp [getElem?_set_self hpc] at hi
    | readEof hx hpc hin => simp [getElem?_set_self hpc] at hi
    | readBad hx hpc l rest hg hs => simp [getElem?_set_self hpc] at hi
    | readCred hx hpc l rest c0 hg hs => simp [getElem?_set_self hpc] at hi
    | tryExit hx c0 hpc hr => simp [getElem?_set_self hpc] at hi
    | tryFail hx c0 hpc hr => simp [getElem?_set_self hpc] at hi
    | setQuit hx c0 hpc => simp [getElem?_set_self hpc] at hi
  · cases hst with
    | tryExit hx c0 hpc hr =>
      simp only [getElem?_set_other hji] at hi
      simp only [triesOf]
      rw [triesOf_append_other s i _ hji]
      exact h i c hi
    | tryFail hx c0 hpc hr =>
      simp only [getElem?_set_other hji] at hi
      simp only [triesOf]
      rw [triesOf_append_other s i _ hji]
      exact h i c hi
    | trySucc hx c0 hpc hr =>
      simp only [getElem?_set_other hji] at hi
      simp only [triesOf]
      rw [triesOf_append_other s i _ hji]
      exact h i c hi
    | loopGo hx hpc hq =>
      simp only [getElem?_set_other hji] at hi
      exact h i c hi
    | loopStop hx hpc hq =>
      simp only [getElem?_set_other hji] at hi
      exact h i c hi
    | readEof hx hpc hin =>
      simp only [getElem?_set_other hji] at hi
      exact h i c hi
    | readBad hx hpc l rest hg hs =>
      simp only [getElem?_set_other hji] at hi
      exact h i c hi
    | readCred hx hpc l rest c0 hg hs =>
      simp only [getElem?_set_other hji] at hi
      exact h i c hi
    | report hx c0 hpc =>
      simp only [getElem?_set_other hji] at hi
      exact h i c hi
    | setQuit hx c0 hpc =>
      simp only [getElem?_set_other hji] at hi
      exact h i c hi

theorem ownSuccess_exec (cfg : Config) (inp : List Char) (n : Nat) (sch : List Nat) :
    OwnSuccess (exec cfg sch (init inp n)) := by
  refine exec_induction cfg _ (ownSuccess_step cfg) sch _ ?_
  intro i c hi
  simp only [init, List.getElem?_replicate] at hi
  split at hi <;> simp at hi

/-- C9. Stop-flag invariant: `quit` starts at 0; no step changes it from nonzero
back to 0, and a run in which it is nonzero keeps it nonzero; a step changes
it only when the worker that moves stands at `quit = 1` (line 131), where it
stands only when the last call of `try` of that same worker returned 1; a
worker whose `getpassword` returns 0 (end of input or a refused line) stops
and leaves the flag as it is, and every other worker stays where it is and,
unless it has stopped, can still move. -/
theorem stop_flag_invariant (cfg : Config) :
    (∀ inp T, (init inp T).quit = 0) ∧
    (∀ (i : Nat) (s s1 : State), step cfg i s = some s1 →
      (s.quit ≠ 0 → s1.quit ≠ 0) ∧
      (s1.quit ≠ s.quit → ∃ c, s.pcs[i]? = some (Pc.setQuit c)) ∧
      (s.pcs[i]? = some Pc.callGetpassword → (getpassword cfg.verbose s.stdin).ret = 0 →
        s1.pcs[i]? = some Pc.stopped ∧ s1.quit = s.quit ∧
        ∀ (j : Nat) (pc : Pc), j ≠ i → s.pcs[j]? = some pc →
          s1.pcs[j]? = some pc ∧
          (pc ≠ Pc.stopped → pc ≠ Pc.inExit → (step cfg j s1).isSome = true))) ∧
    (∀ inp T sch more, (exec cfg sch (init inp T)).quit ≠ 0 →
      (exec cfg (sch ++ more) (init inp T)).quit ≠ 0) ∧
    (∀ inp T sch (i : Nat) (c : Credential),
      (exec cfg sch (init inp T)).pcs[i]? = some (Pc.setQuit c) →
      (triesOf (exec cfg sch (init inp T)) i).getLast? = some ⟨i, c, some 1⟩) := by
  have keep : ∀ (i : Nat) (s s1 : State), Step cfg i s s1 → s.quit ≠ 0 → s1.quit ≠ 0 := by
    intro i s s1 hst hq
    cases hst <;> first | exact hq | simp
  refine ⟨fun _ _ => rfl, ?_, ?_, ?_⟩
  · intro i s s1 hs
    have hst := step_spec hs
    refine ⟨keep i s s1 hst, ?_, ?_⟩
    · intro hne
      cases hst with
      | setQuit hx c hpc => exact ⟨c, hpc⟩
      | _ => exact absurd rfl hne
    · intro hpc0 hret
      have hother : ∀ (x : Pc) (s2 : State), s2.pcs = s.pcs.set i x → s2.exited = s.exited →
          ∀ (j : Nat) (pc : Pc), j ≠ i → s.pcs[j]? = some pc →
          s2.pcs[j]? = some pc ∧
          (pc ≠ Pc.stopped → pc ≠ Pc.inExit → (step cfg j s2).isSome = true) := by
        intro x s2 hp hx2 j pc hji hj
        have hj2 : s2.pcs[j]? = some pc := by
          rw [hp, getElem?_set_other (fun e => hji e.symm)]; exact hj
        refine ⟨hj2, fun h1 h2 => step_isSome cfg s2 j pc ?_ hj2 h1 h2⟩
        rw [hx2]
        cases hst <;> assumption
      cases hst with
      | readEof hx hpc hin =>
        exact ⟨getElem?_set_self hpc, rfl, hother _ _ rfl rfl⟩
      | readBad hx hpc l rest hg hsl =>
        exact ⟨getElem?_set_self hpc, rfl, hother _ _ rfl rfl⟩
      | readCred hx hpc l rest c hg hsl =>
        have := (getpassword_of_line cfg.verbose s.stdin l rest c hg hsl).1
        rw [this] at hret
        exact absurd hret (by decide)
      | loopGo hx hpc hq => rw [hpc] at hpc0; simp at hpc0
      | loopStop hx hpc hq => rw [hpc] at hpc0; simp at hpc0
      | tryExit hx c hpc hr => rw [hpc] at hpc0; simp at hpc0
      | tryFail hx c hpc hr => rw [hpc] at hpc0; simp at hpc0
      | trySucc hx c hpc hr => rw [hpc] at hpc0; simp at hpc0
      | report hx c hpc => rw [hpc] at hpc0; simp at hpc0
      | setQuit hx c hpc => rw [hpc] at hpc0; simp at hpc0
  · intro inp T sch more hq
    rw [exec_append]
    exact exec_induction cfg (fun s => s.quit ≠ 0) (fun s s1 i h hst => keep i s s1 hst h)
      more _ hq
  · intro inp T sch i c hpc
    exact ownSuccess_exec cfg inp T sch i c (Or.inr hpc)

/-! ### One worker: its run is one sequence of steps -/

/-- C9, witness: two workers and an empty input, where worker 0 has tested the
flag and now calls `getpassword`, which returns 0; and one worker on the input
"root:correct", which comes to stand at `quit = 1` and sets the flag. -/
theorem stop_flag_invariant_witness :
    (step (mockCfg ⟨"root".toList, "correct".toList⟩) 0
        (exec (mockCfg ⟨"root".toList, "correct".toList⟩) [0] (init [] 2))
      = some (exec (mockCfg ⟨"root".toList, "correct".toList⟩) [0, 0] (init [] 2)) ∧
    (((exec (mockCfg ⟨"root".toList, "correct".toList⟩) [0] (init [] 2)).quit ≠ 0 →
        (exec (mockCfg ⟨"root".toList, "correct".toList⟩) [0, 0] (init [] 2)).quit ≠ 0) ∧
      ((exec (mockCfg ⟨"root".toList, "correct".toList⟩) [0, 0] (init [] 2)).quit
          ≠ (exec (mockCfg ⟨"root".toList, "correct".toList⟩) [0] (init [] 2)).quit →
        ∃ c, (exec (mockCfg ⟨"root".toList, "correct".toList⟩) [0] (init [] 2)).pcs[0]?
          = some (Pc.setQuit c)) ∧
      ((exec (mockCfg ⟨"root".toList, "correct".toList⟩) [0] (init [] 2)).pcs[0]?
          = some Pc.callGetpassword →
        (getpassword (mockCfg ⟨"root".toList, "correct".toList⟩).verbose
          (exec (mockCfg ⟨"root".toList, "correct".toList⟩) [0] (init [] 2)).stdin).ret = 0 →
        (exec (mockCfg ⟨"root".toList, "correct".toList⟩) [0, 0] (init [] 2)).pcs[0]?
          = some Pc.stopped ∧
        (exec (mockCfg ⟨"root".toList, "correct".toList⟩) [0, 0] (init [] 2)).quit
          = (exec (mockCfg ⟨"root".toList, "correct".toList⟩) [0] (init [] 2)).quit ∧
        ∀ (j : Nat) (pc : Pc), j ≠ 0 →
          (exec (mockCfg ⟨"root".toList, "correct".toList⟩) [0] (init [] 2)).pcs[j]? = some pc →
          (exec (mockCfg ⟨"root".toList, "correct".toList⟩) [0, 0] (init [] 2)).pcs[j]? = some pc ∧
          (pc ≠ Pc.stopped → pc ≠ Pc.inExit →
            (step (mockCfg ⟨"root".toList, "correct".toList⟩) j
              (exec (mockCfg ⟨"root".toList, "correct".toList⟩) [0, 0] (init [] 2))).isSome
              = true)))) ∧
    ((exec (mockCfg ⟨"root".toList, "correct".toList⟩) [0, 0, 0, 0, 0]
        (init "root:correct\n".toList 1)).quit ≠ 0 ∧
      (exec (mockCfg ⟨"root".toList, "correct".toList⟩) ([0, 0, 0, 0, 0] ++ [0, 0])
        (init "root:correct\n".toList 1)).quit ≠ 0) ∧
    ((exec (mockCfg ⟨"root".toList, "correct".toList⟩) [0, 0, 0, 0]
        (init "root:correct\n".toList 1)).pcs[0]?
        = some (Pc.setQuit ⟨"root".toList, "correct".toList⟩) ∧
      (triesOf (exec (mockCfg ⟨"root".toList, "correct".toList⟩) [0, 0, 0, 0]
        (init "root:correct\n".toList 1)) 0).getLast?
        = some ⟨0, ⟨"root".toList, "correct".toList⟩, some 1⟩) :=
  ⟨⟨by decide, (stop_flag_invariant (mockCfg ⟨"root".toList, "correct".toList⟩)).2.1 0
    (exec (mockCfg ⟨"root".toList, "correct".toList⟩) [0] (init [] 2))
    (exec (mockCfg ⟨"root".toList, "correct".toList⟩) [0, 0] (init [] 2)) (by decide)⟩,
   ⟨by decide, (stop_flag_invariant (mockCfg ⟨"root".toList, "correct".toList⟩)).2.2.1
     "root:correct\n".toList 1 [0, 0, 0, 0, 0] [0, 0] (by decide)⟩,
   ⟨by decide, (stop_flag_invariant (mockCfg ⟨"root".toList, "correct".toList⟩)).2.2.2
     "root:correct\n".toList 1 [0, 0, 0, 0] 0 ⟨"root".toList, "correct".toList⟩ (by decide)⟩⟩

theorem step_other_single (cfg : Config) (s : State) (i : Nat) (h1 : s.pcs.length = 1)
    (hi : i ≠ 0) : step cfg i s = none := by
  have : s.pcs[i]? = none := by
    rw [List.getElem?_eq_none_iff]; omega
  unfold step
  simp [this]

theorem step_length {cfg : Config} {s s1 : State} {i : Nat} (h : step cfg i s = some s1) :
    s1.pcs.length = s.pcs.length := by
  obtain ⟨pc, x, _, hp⟩ := step_pcs (step_spec h)
  rw [hp, List.length_set]

/-- With one worker every schedule gives a state the worker reaches by moving alone. -/
theorem exec_single (cfg : Config) (sch : List Nat) :
    ∀ s : State, s.pcs.length = 1 →
      ∃ k, k ≤ sch.length ∧ exec cfg sch s = exec cfg (List.replicate k 0) s := by
  induction sch with
  | nil => intro s _; exact ⟨0, le_refl _, rfl⟩
  | cons i sch ih =>
    intro s h1
    cases hs : step cfg i s with
    | none =>
      obtain ⟨k, hk, he⟩ := ih s h1
      exact ⟨k, by simp only [List.length_cons]; omega, by simp only [exec, hs]; exact he⟩
    | some s1 =>
      have hi : i = 0 := by
        by_contra hne
        rw [step_other_single cfg s i h1 hne] at hs
        simp at hs
      subst hi
      obtain ⟨k, hk, he⟩ := ih s1 (by rw [step_length hs]; exact h1)
      exact ⟨k + 1, by simp only [List.length_cons]; omega,
        by simp only [exec, hs, List.replicate_succ]; exact he⟩

theorem exec_stuck (cfg : Config) (s : State) (h : step cfg 0 s = none) (k : Nat) :
    exec cfg (List.replicate k 0) s = s := by
  induction k with
  | zero => rfl
  | succ k ih => simp only [List.replicate_succ, exec, h]; exact ih

theorem exec_replicate_add (cfg : Config) (s : State) (a b : Nat) :
    exec cfg (List.replicate (a + b) 0) s
      = exec cfg (List.replicate b 0) (exec cfg (List.replicate a 0) s) := by
  rw [← exec_append, ← List.replicate_add]

/-- With one worker that is stuck after `K` steps, every schedule gives one of the
states it goes through in those `K` steps. -/
theorem exec_single_bounded (cfg : Config) (s : State) (K : Nat) (h1 : s.pcs.length = 1)
    (hK : step cfg 0 (exec cfg (List.replicate K 0) s) = none) (sch : List Nat) :
    ∃ k ∈ List.range (K + 1), exec cfg sch s = exec cfg (List.replicate k 0) s := by
  obtain ⟨k, _, he⟩ := exec_single cfg sch s h1
  by_cases hk : k ≤ K
  · exact ⟨k, by simp only [List.mem_range]; omega, he⟩
  · refine ⟨K, by simp, ?_⟩
    have : k = K + (k - K) := by omega
    rw [he, this, exec_replicate_add, exec_stuck cfg _ hK]

theorem exec_of_stopped_single (cfg : Config) (s : State) (h : s.pcs = [Pc.stopped])
    (sch : List Nat) : exec cfg sch s = s := by
  induction sch with
  | nil => rfl
  | cons i sch ih =>
    have : step cfg i s = none := by
      cases i with
      | zero => unfold step; simp [h]
      | succ i => exact step_other_single cfg s _ (by simp [h]) (by omega)
    simp only [exec, this]
    exact ih

/-- C3. Malformed-line behaviour: on a line without ':' `getpassword` returns 0
and yields no credential; with a single worker, on every input and in every
run, a line without ':' that was read is the last line read, the worker has
stopped and stays so, and the credentials it passed to `try` are those of the
lines before it. In the scenario (input "alice:secret\nmalformedline\nbob:pw2\n",
a server that rejects (alice, secret)) the line "bob:pw2" is never read, only
(alice, secret) is ever attempted, the worker can always be run to its stop, and
once it has stopped it has read the first two lines and attempted (alice, secret)
alone. -/
theorem malformed_line_stops_worker :
    (∀ (verbose : Int) (stdin l rest : List Char), getline stdin = some (l, rest) → ':' ∉ l →
      (getpassword verbose stdin).ret = 0 ∧ (getpassword verbose stdin).cred = none) ∧
    (∀ (cfg : Config) (inp : List Char) (sch : List Nat) (before : List (List Char))
      (l : List Char) (after : List (List Char)),
      (exec cfg sch (init inp 1)).reads.map Prod.snd = before ++ l :: after → ':' ∉ l →
      after = [] ∧ (exec cfg sch (init inp 1)).pcs = [Pc.stopped] ∧
      (exec cfg sch (init inp 1)).tries.map Trial.cred = before.filterMap splitLine ∧
      ∀ more, exec cfg (sch ++ more) (init inp 1) = exec cfg sch (init inp 1)) ∧
    (∀ sch,
      "bob:pw2\n".toList ∉ (exec (mockCfg ⟨"root".toList, "correct".toList⟩) sch
        (init "alice:secret\nmalformedline\nbob:pw2\n".toList 1)).reads.map Prod.snd ∧
      (∀ t ∈ (exec (mockCfg ⟨"root".toList, "correct".toList⟩) sch
        (init "alice:secret\nmalformedline\nbob:pw2\n".toList 1)).tries,
        t.cred = ⟨"alice".toList, "secret".toList⟩) ∧
      (∃ more, allStopped (exec (mockCfg ⟨"root".toList, "correct".toList⟩) (sch ++ more)
        (init "alice:secret\nmalformedline\nbob:pw2\n".toList 1))) ∧
      (allStopped (exec (mockCfg ⟨"root".toList, "correct".toList⟩) sch
          (init "alice:secret\nmalformedline\nbob:pw2\n".toList 1)) →
        (exec (mockCfg ⟨"root".toList, "correct".toList⟩) sch
          (init "alice:secret\nmalformedline\nbob:pw2\n".toList 1)).reads
          = [(0, "alice:secret\n".toList), (0, "malformedline\n".toList)] ∧
        (exec (mockCfg ⟨"root".toList, "correct".toList⟩) sch
          (init "alice:secret\nmalformedline\nbob:pw2\n".toList 1)).tries
          = [⟨0, ⟨"alice".toList, "secret".toList⟩, some 0⟩] ∧
        (exec (mockCfg ⟨"root".toList, "correct".toList⟩) sch
          (init "alice:secret\nmalformedline\nbob:pw2\n".toList 1)).stdin
          = "bob:pw2\n".toList)) := by
  refine ⟨?_, ?_, ?_⟩
  · intro verbose stdin l rest hg hl
    have := getpassword_of_refused verbose stdin l rest hg (splitLine_no_colon l hl)
    exact ⟨this.1, this.2.1⟩
  · intro cfg inp sch before l after hreads hl
    obtain ⟨pc, hS⟩ := single_exec cfg inp sch
    have hbad := splitLine_no_colon l hl
    have hafter : after = [] := by
      by_contra hne
      have hmem : l ∈ ((exec cfg sch (init inp 1)).reads.map Prod.snd).dropLast := by
        rw [hreads, List.dropLast_append_of_ne_nil _ (by simp)]
        cases after with
        | nil => exact absurd rfl hne
        | cons a as => simp [List.dropLast]
      exact hS.lastbad l hmem hbad
    have hpc : pc = Pc.stopped := by
      by_contra hne
      exact hS.norefuse hne l (by rw [hreads]; simp) hbad
    subst hpc
    subst hafter
    refine ⟨rfl, hS.one, ?_, ?_⟩
    · have := hS.accepted
      rw [hreads] at this
      simpa [List.filterMap_append, hbad, Pc.pending] using this.symm
    · intro more
      rw [exec_append]
      exact exec_of_stopped_single cfg _ hS.one more
  · intro sch
    obtain ⟨k, hk, he⟩ := exec_single_bounded (mockCfg ⟨"root".toList, "correct".toList⟩)
      (init "alice:secret\nmalformedline\nbob:pw2\n".toList 1) 5 rfl (by decide) sch
    have hall : ∀ k ∈ List.range (5 + 1),
        "bob:pw2\n".toList ∉ (exec (mockCfg ⟨"root".toList, "correct".toList⟩)
          (List.replicate k 0)
          (init "alice:secret\nmalformedline\nbob:pw2\n".toList 1)).reads.map Prod.snd ∧
        (∀ t ∈ (exec (mockCfg ⟨"root".toList, "correct".toList⟩) (List.replicate k 0)
          (init "alice:secret\nmalformedline\nbob:pw2\n".toList 1)).tries,
          t.cred = ⟨"alice".toList, "secret".toList⟩) ∧
        (allStopped (exec (mockCfg ⟨"root".toList, "correct".toList⟩) (List.replicate k 0)
            (init "alice:secret\nmalformedline\nbob:pw2\n".toList 1)) →
          (exec (mockCfg ⟨"root".toList, "correct".toList⟩) (List.replicate k 0)
            (init "alice:secret\nmalformedline\nbob:pw2\n".toList 1)).reads
            = [(0, "alice:secret\n".toList), (0, "malformedline\n".toList)] ∧
          (exec (mockCfg ⟨"root".toList, "correct".toList⟩) (List.replicate k 0)
            (init "alice:secret\nmalformedline\nbob:pw2\n".toList 1)).tries
            = [⟨0, ⟨"alice".toList, "secret".toList⟩, some 0⟩] ∧
          (exec (mockCfg ⟨"root".toList, "correct".toList⟩) (List.replicate k 0)
            (init "alice:secret\nmalformedline\nbob:pw2\n".toList 1)).stdin
            = "bob:pw2\n".toList) := by
      decide
    have hk2 := hall k hk
    rw [← he] at hk2
    refine ⟨hk2.1, hk2.2.1, ?_, hk2.2.2⟩
    obtain ⟨more, hf⟩ := exec_finishes (mockCfg ⟨"root".toList, "correct".toList⟩)
      "alice:secret\nmalformedline\nbob:pw2\n".toList 1 sch
    refine ⟨more, ?_⟩
    rcases hf with hx | hs
    · obtain ⟨k2, hk2m, he2⟩ := exec_single_bounded (mockCfg ⟨"root".toList, "correct".toList⟩)
        (init "alice:secret\nmalformedline\nbob:pw2\n".toList 1) 5 rfl (by decide) (sch ++ more)
      have hnx : ∀ k ∈ List.range (5 + 1),
          (exec (mockCfg ⟨"root".toList, "correct".toList⟩) (List.replicate k 0)
            (init "alice:secret\nmalformedline\nbob:pw2\n".toList 1)).exited = false := by
        decide
      rw [he2, hnx k2 hk2m] at hx
      exact absurd hx (by simp)
    · exact hs

/-! ### One worker: the order of the trials -/

/-- C3, witness: `getpassword` on the input that starts with the line
"malformedline", and the run of the scenario after the worker has read that line. -/
theorem malformed_line_stops_worker_witness :
    ((getline "malformedline\nbob:pw2\n".toList
        = some ("malformedline\n".toList, "bob:pw2\n".toList) ∧
      ':' ∉ "malformedline\n".toList) ∧
    ((getpassword 0 "malformedline\nbob:pw2\n".toList).ret = 0 ∧
      (getpassword 0 "malformedline\nbob:pw2\n".toList).cred = none)) ∧
    ((exec (mockCfg ⟨"root".toList, "correct".toList⟩) [0, 0, 0, 0, 0]
        (init "alice:secret\nmalformedline\nbob:pw2\n".toList 1)).reads.map Prod.snd
        = ["alice:secret\n".toList] ++ "malformedline\n".toList :: [] ∧
      (([] : List (List Char)) = [] ∧
        (exec (mockCfg ⟨"root".toList, "correct".toList⟩) [0, 0, 0, 0, 0]
          (init "alice:secret\nmalformedline\nbob:pw2\n".toList 1)).pcs = [Pc.stopped] ∧
        (exec (mockCfg ⟨"root".toList, "correct".toList⟩) [0, 0, 0, 0, 0]
          (init "alice:secret\nmalformedline\nbob:pw2\n".toList 1)).tries.map Trial.cred
          = ["alice:secret\n".toList].filterMap splitLine ∧
        ∀ more, exec (mockCfg ⟨"root".toList, "correct".toList⟩) ([0, 0, 0, 0, 0] ++ more)
            (init "alice:secret\nmalformedline\nbob:pw2\n".toList 1)
          = exec (mockCfg ⟨"root".toList, "correct".toList⟩) [0, 0, 0, 0, 0]
            (init "alice:secret\nmalformedline\nbob:pw2\n".toList 1))) :=
  ⟨⟨by decide, malformed_line_stops_worker.1 0 "malformedline\nbob:pw2\n".toList
    "malformedline\n".toList "bob:pw2\n".toList (by decide) (by decide)⟩,
   by decide,
   malformed_line_stops_worker.2.1 (mockCfg ⟨"root".toList, "correct".toList⟩)
     "alice:secret\nmalformedline\nbob:pw2\n".toList [0, 0, 0, 0, 0]
     ["alice:secret\n".toList] "malformedline\n".toList [] (by decide) (by decide)⟩

theorem takeThrough_all {α : Type} (p : α → Bool) (l : List α) (h : ∀ x ∈ l, p x = false) :
    takeThrough p l = l := by
  induction l with
  | nil => rfl
  | cons x xs ih =>
    simp only [takeThrough, h x (List.mem_cons_self _ _), Bool.false_eq_true, if_false]
    rw [ih (fun y hy => h y (List.mem_cons_of_mem _ hy))]

theorem takeThrough_stop {α : Type} (p : α → Bool) (a : List α) (c : α) (r : List α)
    (h : ∀ x ∈ a, p x = false) (hc : p c = true) : takeThrough p (a ++ c :: r) = a ++ [c] := by
  induction a with
  | nil => simp [takeThrough, hc]
  | cons x xs ih =>
    have e : x :: xs ++ c :: r = x :: (xs ++ c :: r) := rfl
    rw [e]
    simp only [takeThrough, h x (List.mem_cons_self _ _), Bool.false_eq_true, if_false]
    rw [ih (fun y hy => h y (List.mem_cons_of_mem _ hy))]
    rfl

theorem filterMap_length_of_ne_none {α β : Type} (f : α → Option β) (l : List α)
    (h : ∀ x ∈ l, f x ≠ none) : (l.filterMap f).length = l.length := by
  induction l with
  | nil => rfl
  | cons x xs ih =>
    have hx := h x (List.mem_cons_self _ _)
    cases hf : f x with
    | none => exact absurd hf hx
    | some y =>
      simp only [List.filterMap_cons, hf, List.length_cons]
      rw [ih (fun y hy => h y (List.mem_cons_of_mem _ hy))]

theorem lines_streamOf (ps : List Credential) (last : Option Credential)
    (hwf : ∀ c ∈ ps ++ last.toList, c.WellFormed) :
    lines (streamOf ps last) = linesOf ps last := by
  induction ps with
  | nil =>
    cases last with
    | none => simp [streamOf, linesOf, lines_nil]
    | some c =>
      obtain ⟨h1, h2, h3, h4, h5, h6⟩ := hwf c (by simp)
      have hl : '\n' ∉ c.lastLine := by
        simp only [Credential.lastLine, List.mem_append, List.mem_cons, not_or]
        exact ⟨h2, by decide, h5⟩
      have hg := getline_last c.lastLine (by simp [Credential.lastLine]) hl
      simp [streamOf, linesOf, lines_of_getline hg, lines_nil]
  | cons c cs ih =>
    obtain ⟨h1, h2, h3, h4, h5, h6⟩ := hwf c (by simp)
    have hl : '\n' ∉ c.lastLine := by
      simp only [Credential.lastLine, List.mem_append, List.mem_cons, not_or]
      exact ⟨h2, by decide, h5⟩
    have hg := getline_line c.lastLine (streamOf cs last) hl
    have e1 : c.lastLine ++ '\n' :: streamOf cs last = streamOf (c :: cs) last := by
      simp [streamOf, Credential.lastLine, Credential.line]
    have e2 : c.lastLine ++ ['\n'] = c.line := by
      simp [Credential.lastLine, Credential.line]
    rw [e1, e2] at hg
    rw [lines_of_getline hg, ih (fun x hx => hwf x (by
      simp only [List.cons_append, List.mem_cons]; exact Or.inr hx))]
    simp [linesOf]

theorem splitLine_linesOf (ps : List Credential) (last : Option Credential)
    (hwf : ∀ c ∈ ps ++ last.toList, c.WellFormed) :
    (linesOf ps last).filterMap splitLine = ps ++ last.toList ∧
    ∀ l ∈ linesOf ps last, splitLine l ≠ none := by
  have hline : ∀ c : Credential, c.WellFormed → splitLine c.line = some c := by
    intro c ⟨h1, h2, h3, h4, h5, h6⟩
    exact splitLine_newline c.username c.password h1 h3 h5 h6
  have hlast : ∀ c : Credential, c.WellFormed → splitLine c.lastLine = some c := by
    intro c ⟨h1, h2, h3, h4, h5, h6⟩
    exact splitLine_eof c.username c.password h1 h3 h4 h5 h6
  have hps : ∀ (qs : List Credential), (∀ c ∈ qs, c.WellFormed) →
      (qs.map Credential.line).filterMap splitLine = qs := by
    intro qs hq
    induction qs with
    | nil => rfl
    | cons c cs ih =>
      simp only [List.map_cons, List.filterMap_cons, hline c (hq c (List.mem_cons_self _ _))]
      rw [ih (fun x hx => hq x (List.mem_cons_of_mem _ hx))]
  constructor
  · unfold linesOf
    rw [List.filterMap_append, hps ps (fun c hc => hwf c (List.mem_append_left _ hc))]
    cases last with
    | none => simp
    | some c => simp [hlast c (hwf c (by simp))]
  · intro l hl
    simp only [linesOf, List.mem_append, List.mem_map] at hl
    rcases hl with ⟨c, hc, rfl⟩ | ⟨c, hc, rfl⟩
    · rw [hline c (hwf c (List.mem_append_left _ hc))]; simp
    · rw [hlast c (hwf c (List.mem_append_right _ hc))]; simp

/-- The end of a run of one worker on an input of accepted lines: the credentials
it passed to `try`, and how many lines it read. -/
theorem single_final (cfg : Config) (inp : List Char) (sch : List Nat)
    (hall : ∀ l ∈ lines inp, splitLine l ≠ none)
    (hf : finished (exec cfg sch (init inp 1))) :
    (exec cfg sch (init inp 1)).tries.map Trial.cred
      = takeThrough (stops cfg) ((lines inp).filterMap splitLine) ∧
    (exec cfg sch (init inp 1)).reads.length = (exec cfg sch (init inp 1)).tries.length := by
  obtain ⟨pc, hS⟩ := single_exec cfg inp sch
  have ht := traced_exec cfg inp 1 sch
  have hc := counts_exec cfg inp 1 sch
  generalize exec cfg sch (init inp 1) = s at *
  have hpairs : (lines inp).filterMap splitLine
      = s.tries.map Trial.cred ++ pc.pending ++ (lines s.stdin).filterMap splitLine := by
    rw [ht.consumed, List.filterMap_append, hS.accepted]
  have hacc : ∀ l ∈ s.reads.map Prod.snd, splitLine l ≠ none :=
    fun l hl => hall l (mem_reads_lines ht hl)
  have hlen : s.reads.length = (s.tries.map Trial.cred ++ pc.pending).length := by
    rw [← hS.accepted, filterMap_length_of_ne_none _ _ hacc, List.length_map]
  have hstop : ∀ t ∈ s.tries, stops cfg t.cred = decide (t.ret ≠ some 0) := by
    intro t htm
    simp only [stops, (ht.tried t htm).2]
  have key : (∀ t ∈ s.tries, t.ret = some 0) ∨
      ∃ d t, s.tries = d ++ [t] ∧ (∀ x ∈ d, x.ret = some 0) ∧ t.ret ≠ some 0 := by
    rcases List.eq_nil_or_concat s.tries with hnil | ⟨d, t, hd⟩
    · left; rw [hnil]; simp
    · by_cases hz : t.ret = some 0
      · left
        intro x hx
        rw [hd] at hx
        simp only [List.concat_eq_append, List.mem_append, List.mem_singleton] at hx
        rcases hx with hx | rfl
        · have := hS.zero
          rw [hd] at this
          simp only [List.concat_eq_append, List.dropLast_concat] at this
          exact this x hx
        · exact hz
      · right
        refine ⟨d, t, by simpa using hd, ?_, hz⟩
        have := hS.zero
        rw [hd] at this
        simpa using this
  rcases key with hz | ⟨d, t, hd, hdz, htz⟩
  · have hx : s.exited = false := by
      by_contra hx
      obtain ⟨t, htm, hn⟩ := ht.exit (by simpa using hx)
      rw [hz t htm] at hn
      simp at hn
    have hs : allStopped s := by
      rcases hf with hf | hf
      · rw [hx] at hf; exact absurd hf (by simp)
      · exact hf
    have hpc : pc = Pc.stopped := hs pc (by rw [hS.one]; simp)
    subst hpc
    have hin : s.stdin = [] := by
      rcases allStopped_cases ht (le_refl 1) hs with hq | hin | ⟨l, hl, hbad⟩
      · exfalso
        have hw : 1 ≤ s.quitWrites := by
          rcases hc.flag with h | h
          · exact absurd h.1 hq
          · exact h.2
        have hone := hc.tryOnes
        have hpos : 0 < s.tries.countP (fun t => decide (t.ret = some 1)) := by omega
        obtain ⟨t, htm, ht1⟩ := List.countP_pos_iff.mp hpos
        rw [hz t htm] at ht1
        simp at ht1
      · exact hin
      · exact absurd hbad (hacc l hl)
    constructor
    · rw [hpairs, hin, lines_nil]
      simp only [Pc.pending, List.filterMap_nil, List.append_nil]
      rw [takeThrough_all]
      intro c hcm
      obtain ⟨t, htm, rfl⟩ := List.mem_map.mp hcm
      rw [hstop t htm, hz t htm]
      simp
    · simpa [Pc.pending] using hlen
  · have hnr : ¬ pc.running := by
      intro hr
      have := hS.running hr t (by rw [hd]; simp)
      exact htz this
    have hpend : pc.pending = [] := by
      cases pc <;> simp [Pc.pending, Pc.running] at hnr ⊢
    constructor
    · rw [hpairs, hpend, hd]
      simp only [List.map_append, List.map_cons, List.map_nil, List.append_nil,
        List.append_assoc, List.singleton_append]
      rw [takeThrough_stop]
      · intro c hcm
        obtain ⟨x, hxm, rfl⟩ := List.mem_map.mp hcm
        rw [hstop x (by rw [hd]; exact List.mem_append_left _ hxm), hdz x hxm]
        simp
      · rw [hstop t (by rw [hd]; simp)]
        simpa using htz
    · simpa [hpend] using hlen

/-- The process is over only when a thread is inside `exit`. -/
theorem exited_inExit (cfg : Config) (inp : List Char) (n : Nat) (sch : List Nat) :
    (exec cfg sch (init inp n)).exited = true → Pc.inExit ∈ (exec cfg sch (init inp n)).pcs := by
  refine exec_induction cfg (fun s => s.exited = true → Pc.inExit ∈ s.pcs) ?_ sch _
    (by simp [init])
  intro s s1 i h hst hx1
  cases hst with
  | tryExit hx c hpc hr =>
    have hi : i < s.pcs.length := (List.getElem?_eq_some.mp hpc).1
    exact List.mem_iff_getElem?.mpr ⟨i, getElem?_set_self hpc⟩
  | _ => simp_all

theorem try_ret_one_iff (lib : Libssh) (v : Int) (h u p : List Char) (port : Int) :
    (try_ lib v h u p port).ret = some 1 ↔
      (0 ≤ lib.ssh_options_set .SSH_OPTIONS_USER u ∧
        0 ≤ lib.ssh_options_set .SSH_OPTIONS_HOST h ∧
        0 ≤ lib.ssh_options_set .SSH_OPTIONS_PORT_STR (toString port).toList ∧
        lib.ssh_connect h (toString port).toList u = 0 ∧
        lib.ssh_userauth_password h (toString port).toList u p = 0) := by
  unfold try_
  simp only
  split_ifs <;> simp_all

theorem take_of_append_eq {α : Type} (a b l : List α) (h : l = a ++ b) : a = l.take a.length := by
  rw [h]; simp

end SshBrute
